import Mathlib

set_option maxHeartbeats 1000000

/-!
Verification development for check_fedora_deps.py: a script that parses Cargo
manifest/lockfile data, checks crate existence against Fedora repositories
(with session and persistent caching), and patches an RPM spec file between
marker lines.

Files are modelled as lists of lines; a line is a `String` holding the text of
the line without its trailing newline terminator (Python's `content.split
("\n")` and `readlines`/`writelines` round-trip correspond to this
representation for newline-free line strings).  Filesystem access is modelled
by passing file contents (`Option String`: `none` is a missing file) and
directory–scan results explicitly.  Wall-clock time (`time.time()`) is passed
explicitly as an `Int` argument.
-/

/-! ### Small string utilities shared by the embedding -/

/-- The whitespace characters stripped by Python `str.strip()` and matched by
the regex class `\s` (the ASCII ones, which is all this script meets). -/
def isPyWs (c : Char) : Bool :=
  c = ' ' || c = '\t' || c = '\n' || c = '\r' || c = '\x0b' || c = '\x0c'

/-- Python `line.strip()`. -/
def pyStrip (s : String) : String :=
  (((s.toList.dropWhile isPyWs).reverse.dropWhile isPyWs).reverse).asString

/-- Python `needle in hay` substring containment, on character lists. -/
def infixOfB (needle : List Char) : List Char → Bool
  | [] => needle.isEmpty
  | c :: rest => needle.isPrefixOf (c :: rest) || infixOfB needle rest

/-- Python `needle in hay` on strings (used for the spec-file marker search). -/
def strContains (hay needle : String) : Bool := infixOfB needle.toList hay.toList

/-- Lexicographic comparison of strings by code point, as Python compares
`str` (and hence `pathlib` paths on POSIX) in `sorted(...)`. -/
def lexLe : List Char → List Char → Bool
  | [], _ => true
  | _ :: _, [] => false
  | a :: as, b :: bs =>
    if a < b then true
    else if b < a then false
    else lexLe as bs

/-- Python `a <= b` on strings. -/
def strLe (a b : String) : Bool := lexLe a.toList b.toList

/-- Python `content.split('\n')` (splits at every newline, keeping empty
pieces). -/
def pySplitNlAux (cur : List Char) : List Char → List String
  | [] => [cur.reverse.asString]
  | c :: rest =>
    if c = '\n' then cur.reverse.asString :: pySplitNlAux [] rest
    else pySplitNlAux (c :: cur) rest

/-- Python `content.split('\n')`. -/
def pySplitNl (s : String) : List String := pySplitNlAux [] s.toList

/-! ### CargoParser.find_all_cargo_tomls (src/check_fedora_deps.py:36-49)

The filesystem is passed in explicitly: `cargo_toml_path` is the root
manifest path `source_dir / "Cargo.toml"`, `root_exists` tells whether that
file exists, and `rglob_results` is the path list produced by
`source_dir.rglob("Cargo.toml")` (each listed path is an existing file). -/

/-- Model of `CargoParser.find_all_cargo_tomls`: start from the root manifest
when it exists, append every rglob hit that is neither the root nor already
collected, and return the list sorted (Python `sorted` on paths, i.e. by the
string ordering `strLe`; `mergeSort` is a stable ascending sort like
Python's). -/
def find_all_cargo_tomls (cargo_toml_path : String) (root_exists : Bool)
    (rglob_results : List String) : List String :=
  let cargo_tomls : List String := if root_exists then [cargo_toml_path] else []
  let cargo_tomls := rglob_results.foldl
    (fun acc cargo_file =>
      if cargo_file ≠ cargo_toml_path ∧ cargo_file ∉ acc then acc ++ [cargo_file] else acc)
    cargo_tomls
  cargo_tomls.mergeSort strLe

/-! ### CargoParser.parse_single_cargo_toml (src/check_fedora_deps.py:51-88) -/

/-- The characters of the literal `dependencies` looked for by the section
regex. -/
def depsWord : List Char := "dependencies".toList

/-- Predicate for one candidate end position of the section-header regex
`^\[(.*dependencies.*)\]` on `rest` (the characters after the opening
bracket): position `k` holds a closing bracket and the literal
`dependencies` occurs among the characters before it. -/
def groupEndsAt (rest : List Char) (k : Nat) : Bool :=
  rest.getD k ' ' = ']' && infixOfB depsWord (rest.take k)

/-- Scan candidate end positions from the right (greedy `.*`): the largest
`k < bound` with `groupEndsAt rest k`. -/
def findGroupLenAux (rest : List Char) : Nat → Option Nat
  | 0 => none
  | k + 1 => if groupEndsAt rest k then some k else findGroupLenAux rest k

/-- The capture group of Python's `re.match(r'^\[(.*dependencies.*)\]', line)`:
`none` when the regex does not match, otherwise the greedy group — the
characters strictly between the opening bracket and the last closing bracket
that still has a `dependencies` occurrence before it (both `.*` are greedy,
so the group runs to the last such bracket). -/
def sectionGroup : List Char → Option (List Char)
  | [] => none
  | c :: rest =>
    if c = '[' then (findGroupLenAux rest rest.length).map (fun k => rest.take k)
    else none

/-- A character of the regex class `[a-zA-Z0-9_-]` of the dependency-name
pattern. -/
def isDepNameChar (c : Char) : Bool :=
  c.isAlpha || c.isDigit || c = '_' || c = '-'

/-- Python `re.match(r'^([a-zA-Z0-9_-]+)\s*=', line)`: the greedy maximal run
of name characters must be non-empty and be followed, after optional
whitespace, by an equals sign; the capture is that run. -/
def depMatch (l : List Char) : Option String :=
  let w := l.takeWhile isDepNameChar
  if w.isEmpty then none
  else if ((l.drop w.length).dropWhile isPyWs).head? = some '=' then some w.asString
  else none

/-- One iteration of the line loop of `parse_single_cargo_toml`.  State:
(`in_deps_section`, collected dependency names — the Python `set` modelled as
a duplicate-free list in insertion order).  On a section-header match the flag
becomes `'dependencies' in section_name.lower()`; otherwise a bracket line
inside a section leaves it; otherwise a non-empty non-comment line inside a
section contributes its matched dependency name. -/
def tomlStep (st : Bool × List String) (rawLine : String) : Bool × List String :=
  let line := pyStrip rawLine
  match sectionGroup line.toList with
  | some g => (infixOfB depsWord (g.map Char.toLower), st.2)
  | none =>
    if line.toList.head? = some '[' ∧ st.1 then (false, st.2)
    else if st.1 ∧ line ≠ "" ∧ line.toList.head? ≠ some '#' then
      match depMatch line.toList with
      | some w => (st.1, if w ∈ st.2 then st.2 else st.2 ++ [w])
      | none => st
    else st

/-- Model of `CargoParser.parse_single_cargo_toml`: a missing file yields the
empty set; otherwise fold the line loop over `content.split('\n')`. -/
def parse_single_cargo_toml (file : Option String) : List String :=
  match file with
  | none => []
  | some content => ((pySplitNl content).foldl tomlStep (false, [])).2

/-! ### CargoParser.parse_cargo_lock (src/check_fedora_deps.py:94-139) -/

/-- Python `re.match(r'\[\[package\]\]', line)`: the literal must match at the
start of the (stripped) line. -/
def pkgStartLine (l : List Char) : Bool := "[[package]]".toList.isPrefixOf l

/-- Python `re.match(r'^<kw>\s*=\s*"([^"]+)"', line)`: the keyword literal at
the start, optional whitespace, an equals sign, optional whitespace, then a
quoted non-empty capture of non-quote characters terminated by a quote. -/
def keyQuoted (kw : List Char) (l : List Char) : Option String :=
  if kw.isPrefixOf l then
    match (l.drop kw.length).dropWhile isPyWs with
    | '=' :: r2 =>
      match r2.dropWhile isPyWs with
      | '"' :: r3 =>
        let v := r3.takeWhile (fun c => c ≠ '"')
        if v.isEmpty then none
        else if (r3.dropWhile (fun c => c ≠ '"')).head? = some '"' then some v.asString
        else none
      | _ => none
    | _ => none
  else none

/-- Python dict assignment `d[n] = v` on an association list: replace the
existing binding or append a new one. -/
def updateAssoc : List (String × String) → String → String → List (String × String)
  | [], n, v => [(n, v)]
  | (k, w) :: rest, n, v =>
    if k = n then (n, v) :: rest else (k, w) :: updateAssoc rest n v

/-- The record-commit step of `parse_cargo_lock`: `if current_name and
current_version: dependencies[current_name] = current_version` (the captures
are non-empty, so Python truthiness is `Option.isSome` here). -/
def commitPackage (cn cv : Option String) (acc : List (String × String)) :
    List (String × String) :=
  match cn, cv with
  | some n, some v => updateAssoc acc n v
  | _, _ => acc

/-- One iteration of the line loop of `parse_cargo_lock`.  State:
(`current_name`, `current_version`, accumulated mapping). -/
def lockStep (st : Option String × Option String × List (String × String))
    (rawLine : String) : Option String × Option String × List (String × String) :=
  let line := (pyStrip rawLine).toList
  if pkgStartLine line then (none, none, commitPackage st.1 st.2.1 st.2.2)
  else
    match keyQuoted "name".toList line with
    | some n => (some n, st.2.1, st.2.2)
    | none =>
      match keyQuoted "version".toList line with
      | some v => (st.1, some v, st.2.2)
      | none => st

/-- Model of `CargoParser.parse_cargo_lock`: a missing lockfile warns and
returns the empty mapping; otherwise fold the line loop and commit the last
package after the loop. -/
def parse_cargo_lock (file : Option String) : List (String × String) :=
  match file with
  | none => []
  | some content =>
    let st := (pySplitNl content).foldl lockStep (none, none, [])
    commitPackage st.1 st.2.1 st.2.2

/-! ### CargoParser.get_direct_dependencies (src/check_fedora_deps.py:151-164)
and get_all_direct_dependencies_with_sources (166-193) -/

/-- Model of `CargoParser.get_direct_dependencies`: every direct dependency
name from the root Cargo.toml, bound to its Cargo.lock version when present
and to `"unknown"` otherwise. -/
def get_direct_dependencies (toml lock : Option String) : List (String × String) :=
  let direct_deps := parse_single_cargo_toml toml
  let all_deps_with_versions := parse_cargo_lock lock
  direct_deps.map (fun dep_name =>
    (dep_name, (all_deps_with_versions.lookup dep_name).getD "unknown"))

/-- Python `defaultdict(list)` append `dep_sources[dep].append(path)`. -/
def addSource : List (String × List String) → String → String → List (String × List String)
  | [], dep, path => [(dep, [path])]
  | (d, ps) :: rest, dep, path =>
    if d = dep then (d, ps ++ [path]) :: rest
    else (d, ps) :: addSource rest dep path

/-- Model of `CargoParser.get_all_direct_dependencies_with_sources`: the
manifest list is passed as (relative path, content) pairs (each listed file
exists).  Each manifest contributes its direct dependencies to the source
tracker; versions are then resolved against the lockfile with the `"unknown"`
default. -/
def get_all_direct_dependencies_with_sources (files : List (String × String))
    (lock : Option String) : List (String × (String × List String)) :=
  let all_deps_with_versions := parse_cargo_lock lock
  let dep_sources := files.foldl
    (fun acc cargo_file =>
      (parse_single_cargo_toml (some cargo_file.2)).foldl
        (fun a dep_name => addSource a dep_name cargo_file.1) acc)
    []
  dep_sources.map (fun p => (p.1, ((all_deps_with_versions.lookup p.1).getD "unknown", p.2)))

-- Sanity checks on the parsing layer.
example : parse_single_cargo_toml (some "[dependencies]\nserde = \"1\"\n") = ["serde"] := by
  decide
example : parse_single_cargo_toml (some "[Dependencies]\nfoo = \"1\"") = [] := by decide
example :
    parse_cargo_lock
      (some "[[package]]\nname = \"serde\"\nversion = \"1.0.210\"") = [("serde", "1.0.210")] := by
  decide
example : strLe "d/AAA/Cargo.toml" "d/Cargo.toml" = true := by decide

/-! ### Existence verdicts and CacheManager (src/check_fedora_deps.py:196-276)

A verdict is the Python tuple `(exists, message, packages_list)`.  The cache
document's root object is modelled by its `entries` map directly (the
`"entries"` root key handling of `_load_cache`/`get`/`set` concerns only the
JSON shape); `time.time()` is an explicit `Int` argument. -/

/-- The tuple `(exists, message, packages_list)` returned by `check_crate`. -/
abbrev Verdict := Bool × String × List String

/-- One persisted cache entry: a verdict plus its creation timestamp. -/
structure CacheEntry where
  exists_ : Bool
  message : String
  packages : List String
  timestamp : Int
deriving DecidableEq

/-- The cache state: the `entries` map plus the configured TTL
(`cache_ttl`, default 86400 seconds). -/
structure CacheManager where
  entries : List (String × CacheEntry)
  cache_ttl : Int
deriving DecidableEq

/-- Python dict assignment on the entries map: replace or append. -/
def setEntry : List (String × CacheEntry) → String → CacheEntry → List (String × CacheEntry)
  | [], n, e => [(n, e)]
  | (k, w) :: rest, n, e =>
    if k = n then (n, e) :: rest else (k, w) :: setEntry rest n e

/-- Model of `CacheManager.get` at wall-clock time `now`: an entry older than
the TTL is treated as absent. -/
def CacheManager.get (cm : CacheManager) (now : Int) (crate_name : String) :
    Option Verdict :=
  match cm.entries.lookup crate_name with
  | none => none
  | some entry =>
    if now - entry.timestamp > cm.cache_ttl then none
    else some (entry.exists_, entry.message, entry.packages)

/-- Model of `CacheManager.set` at wall-clock time `now`. -/
def CacheManager.set (cm : CacheManager) (now : Int) (crate_name : String)
    (exists_ : Bool) (message : String) (packages : List String) : CacheManager :=
  { cm with entries := setEntry cm.entries crate_name ⟨exists_, message, packages, now⟩ }

/-! ### FedoraChecker (src/check_fedora_deps.py:279-354)

The external oracle (`dnf repoquery --quiet --whatprovides <pattern>` run
with `timeout=10`) is a parameter mapping the queried pattern to its outcome:
a timeout (`subprocess.TimeoutExpired`), some other invocation failure
(`except Exception as e`), or a completed run with an exit status and its
standard output.  `check_crate` additionally reports the list of patterns it
actually queried, so that "the oracle was not invoked" is expressible. -/

/-- Outcome of one `subprocess.run` oracle invocation. -/
inductive OracleResult where
  | timeout
  | failure (msg : String)
  | ran (returncode : Int) (stdout : String)
deriving DecidableEq

/-- Checker state: the optional persistent cache manager and the in-run
session memo. -/
structure FedoraChecker where
  cache_manager : Option CacheManager
  session_cache : List (String × Verdict)
deriving DecidableEq

/-- Python dict assignment on the session memo. -/
def setSession : List (String × Verdict) → String → Verdict → List (String × Verdict)
  | [], n, v => [(n, v)]
  | (k, w) :: rest, n, v =>
    if k = n then (n, v) :: rest else (k, w) :: setSession rest n v

/-- Model of `FedoraChecker._cache_result`: store a verdict in the session
memo and, when a cache manager is attached, in the persistent cache. -/
def _cache_result (now : Int) (ch : FedoraChecker) (crate_name : String)
    (v : Verdict) : FedoraChecker :=
  { cache_manager := ch.cache_manager.map
      (fun cm => cm.set now crate_name v.1 v.2.1 v.2.2),
    session_cache := setSession ch.session_cache crate_name v }

/-- The success test and package-list cleanup of `check_crate` for one
completed oracle run: exit status zero and non-empty stripped output; the
packages are the stripped non-blank output lines.  (`packages[0]` exists
because the stripped output is non-empty, so `headD` is exact.) -/
def oracleSuccess (returncode : Int) (stdout : String) : Option Verdict :=
  if returncode = 0 ∧ pyStrip stdout ≠ "" then
    let packages := ((pySplitNl (pyStrip stdout)).map pyStrip).filter (fun p => p ≠ "")
    some (true, "✓ " ++ packages.headD "", packages)
  else none

/-- The two naming-convention patterns tried by `check_crate`, in order. -/
def cratePatterns (crate_name : String) : List String :=
  ["rust(" ++ crate_name ++ ")", "rust-" ++ crate_name ++ "-devel"]

/-- The body of the pattern loop of `check_crate` (iterations unrolled for
the two patterns): on a timeout or failure of an invocation, return the
negative verdict immediately; on a successful non-empty zero-status result,
return the positive verdict; otherwise fall through to the next pattern, and
after the last pattern return the not-found verdict.  Every returned verdict
passes through `_cache_result`.  The third component lists the patterns that
were actually queried. -/
def check_crate_query (oracle : String → OracleResult) (now : Int)
    (ch : FedoraChecker) (crate_name : String) :
    Verdict × FedoraChecker × List String :=
  let p1 := "rust(" ++ crate_name ++ ")"
  let p2 := "rust-" ++ crate_name ++ "-devel"
  match oracle p1 with
  | .timeout =>
    let v : Verdict := (false, "⚠ Timeout while querying Fedora repos", [])
    (v, _cache_result now ch crate_name v, [p1])
  | .failure e =>
    let v : Verdict := (false, "⚠ Error: " ++ e, [])
    (v, _cache_result now ch crate_name v, [p1])
  | .ran rc out =>
    match oracleSuccess rc out with
    | some v => (v, _cache_result now ch crate_name v, [p1])
    | none =>
      match oracle p2 with
      | .timeout =>
        let v : Verdict := (false, "⚠ Timeout while querying Fedora repos", [])
        (v, _cache_result now ch crate_name v, [p1, p2])
      | .failure e =>
        let v : Verdict := (false, "⚠ Error: " ++ e, [])
        (v, _cache_result now ch crate_name v, [p1, p2])
      | .ran rc2 out2 =>
        match oracleSuccess rc2 out2 with
        | some v => (v, _cache_result now ch crate_name v, [p1, p2])
        | none =>
          let v : Verdict := (false, "✗ Not found in Fedora", [])
          (v, _cache_result now ch crate_name v, [p1, p2])

/-- Model of `FedoraChecker.check_crate`: session memo first, then the
persistent cache (whose hits are copied into the session memo), then the
oracle query loop. -/
def check_crate (oracle : String → OracleResult) (now : Int)
    (ch : FedoraChecker) (crate_name : String) :
    Verdict × FedoraChecker × List String :=
  match ch.session_cache.lookup crate_name with
  | some v => (v, ch, [])
  | none =>
    match ch.cache_manager with
    | some cm =>
      match cm.get now crate_name with
      | some v =>
        (v, { ch with session_cache := setSession ch.session_cache crate_name v }, [])
      | none => check_crate_query oracle now ch crate_name
    | none => check_crate_query oracle now ch crate_name

/-! ### SpecFileUpdater (src/check_fedora_deps.py:356-517)

The spec file is a list of lines.  `update_spec` is modelled as a pure
function returning either an error (the `ValueError` raised when a marker
pair is missing) or the rewritten lines together with the preview text;
`draft=True` returns the preview with the lines unchanged (no write). -/

/-- The scan of `_find_buildrequires_section`/`_find_provides_section`:
walk the lines, remembering the last line containing the start marker, and
stop at the first line that contains the end marker without containing the
start marker; `none` when either index is missing. -/
def findSectionAux (startM endM : String) :
    List String → Nat → Option Nat → Option (Nat × Nat)
  | [], _, _ => none
  | l :: ls, i, startIdx =>
    if strContains l startM then findSectionAux startM endM ls (i + 1) (some i)
    else if strContains l endM then
      match startIdx with
      | some s => some (s, i)
      | none => none
    else findSectionAux startM endM ls (i + 1) startIdx

/-- Model of `SpecFileUpdater._find_buildrequires_section`. -/
def _find_buildrequires_section (lines : List String) : Option (Nat × Nat) :=
  findSectionAux "# Rust dependencies" "# End rust dependencies" lines 0 none

/-- Model of `SpecFileUpdater._find_provides_section`. -/
def _find_provides_section (lines : List String) : Option (Nat × Nat) :=
  findSectionAux "# Bundled dependencies" "# End bundled dependencies" lines 0 none

/-- The first-party crates that are never emitted as bundled provides. -/
def gooseCrates : List String := ["goose", "goose-bench", "goose-mcp"]

/-- The generated build-requirement line for a found dependency. -/
def brLine (name : String) : String := "BuildRequires: rust-" ++ name ++ "-devel"

/-- The generated bundled-provides line for a missing dependency. -/
def provLine (name version : String) : String :=
  "Provides: bundled(crate(" ++ name ++ ")) = " ++ version

/-- Python `sorted(dependencies.items())`: ascending stable sort of the
(unique-keyed) name-to-version pairs by name. -/
def sortDeps (deps : List (String × String)) : List (String × String) :=
  deps.mergeSort (fun a b => strLe a.1 b.1)

/-- The partition loop of `update_spec` (src/check_fedora_deps.py:380-392):
found dependencies produce BuildRequires lines; missing ones produce
bundled-Provides lines unless the name is a first-party goose crate, which is
skipped (the skip happens only in the missing branch). -/
def partitionDeps (deps : List (String × String)) (results : String → Verdict) :
    List String × List String :=
  (sortDeps deps).foldl
    (fun acc nv =>
      if (results nv.1).1 then (acc.1 ++ [brLine nv.1], acc.2)
      else if nv.1 ∈ gooseCrates then acc
      else (acc.1, acc.2 ++ [provLine nv.1 nv.2]))
    ([], [])

/-- The while-loop of `SpecFileUpdater._update_lines`, with the loop index
made explicit and a fuel bound for termination (the Python loop runs at most
`lines.length` iterations whenever each region's start precedes its end,
which the marker search guarantees). -/
def updateLinesAux (lines : List String) (brStart brEnd provStart provEnd : Nat)
    (build_requires provides_list : List String) : Nat → Nat → List String
  | 0, _ => []
  | fuel + 1, i =>
    if i < lines.length then
      if i = brStart then
        lines.getD i "" ::
          (build_requires ++ lines.getD brEnd "" ::
            updateLinesAux lines brStart brEnd provStart provEnd
              build_requires provides_list fuel (brEnd + 1))
      else if i = provStart then
        lines.getD i "" ::
          (provides_list ++ lines.getD provEnd "" ::
            updateLinesAux lines brStart brEnd provStart provEnd
              build_requires provides_list fuel (provEnd + 1))
      else
        lines.getD i "" ::
          updateLinesAux lines brStart brEnd provStart provEnd
            build_requires provides_list fuel (i + 1)
    else []

/-- Model of `SpecFileUpdater._update_lines`. -/
def _update_lines (lines : List String) (buildrequires_idx provides_idx : Nat × Nat)
    (build_requires provides_list : List String) : List String :=
  updateLinesAux lines buildrequires_idx.1 buildrequires_idx.2
    provides_idx.1 provides_idx.2 build_requires provides_list lines.length 0

/-- Model of `SpecFileUpdater._generate_preview` (a human-readable summary;
faithfully carried along, not load-bearing for any claim). -/
def _generate_preview (build_requires provides : List String) : String :=
  let bar : String := String.mk (List.replicate 80 '=')
  let dash : String := String.mk (List.replicate 80 '-')
  let brPart :=
    if build_requires ≠ [] then
      "📦 BuildRequires to add (" ++ toString build_requires.length ++ "):\n" ++
        dash ++ "\n" ++
        String.join ((build_requires.take 10).map (fun b => "  " ++ pyStrip b ++ "\n")) ++
        (if build_requires.length > 10 then
          "  ... and " ++ toString (build_requires.length - 10) ++ " more\n"
         else "") ++ "\n"
    else ""
  let provPart :=
    if provides ≠ [] then
      "📦 Provides (bundled) to add (" ++ toString provides.length ++ "):\n" ++
        dash ++ "\n" ++
        String.join ((provides.take 10).map (fun p => "  " ++ pyStrip p ++ "\n")) ++
        (if provides.length > 10 then
          "  ... and " ++ toString (provides.length - 10) ++ " more\n"
         else "") ++ "\n"
    else ""
  "\n" ++ bar ++ "\n" ++ "SPEC FILE UPDATE PREVIEW\n" ++ bar ++ "\n\n" ++
    brPart ++ provPart ++ bar ++ "\n"

/-- Model of `SpecFileUpdater.update_spec`: locate both marker pairs (a
missing pair raises `ValueError`, modelled as `Except.error`), partition the
sorted dependencies by verdict, and in non-draft mode rewrite the region
contents; the returned lines are what the file holds afterwards. -/
def update_spec (lines : List String) (dependencies : List (String × String))
    (results : String → Verdict) (draft : Bool) :
    Except String (List String × String) :=
  match _find_buildrequires_section lines with
  | none => .error "Could not find # Rust dependencies markers in spec file"
  | some buildrequires_idx =>
    match _find_provides_section lines with
    | none => .error "Could not find # Bundled dependencies markers in spec file"
    | some provides_idx =>
      let (build_requires, provides) := partitionDeps dependencies results
      let preview := _generate_preview build_requires provides
      if draft then .ok (lines, preview)
      else .ok (_update_lines lines buildrequires_idx provides_idx build_requires provides,
                preview)

/-- The spec-update step of `main` (src/check_fedora_deps.py:842-863): run
`update_spec` on the current file contents; on success the file holds the new
lines and the step contributes exit status 0, on a raised error the file is
left untouched and the step yields exit status 1. -/
def update_spec_step (file : List String) (dependencies : List (String × String))
    (results : String → Verdict) (draft : Bool) : List String × Nat :=
  match update_spec file dependencies results draft with
  | .ok (newLines, _) => (if draft then file else newLines, 0)
  | .error _ => (file, 1)

/-! ### Spec-side definition used to settle the section-header claim -/

/-- The section-opening test as the (amended) specification words it: the
stripped line must start with an opening bracket and contain the literal
lowercase `dependencies` with a closing bracket somewhere after it — i.e.
exactly the lines matched by the case-sensitive regex
`^\[(.*dependencies.*)\]`. -/
def sectionOpens (l : List Char) : Bool :=
  match l with
  | [] => false
  | c :: rest => c = '[' && (List.range rest.length).any (fun k => groupEndsAt rest k)

/-- The line-loop step of `parse_single_cargo_toml` as the amended claim
describes it, for comparison with `tomlStep`: a line opens a dependencies
section exactly when `sectionOpens` holds of it; inside a section any other
bracket line exits, and a non-empty non-comment line contributes its matched
`<name> = ...` dependency name. -/
def tomlStepSpec (st : Bool × List String) (rawLine : String) : Bool × List String :=
  let line := pyStrip rawLine
  if sectionOpens line.toList then (true, st.2)
  else if line.toList.head? = some '[' ∧ st.1 then (false, st.2)
  else if st.1 ∧ line ≠ "" ∧ line.toList.head? ≠ some '#' then
    match depMatch line.toList with
    | some w => (st.1, if w ∈ st.2 then st.2 else st.2 ++ [w])
    | none => st
  else st

/-! ### Helper lemmas: association updates and lookups -/

theorem lookup_setEntry_self (l : List (String × CacheEntry)) (n : String) (e : CacheEntry) :
    (setEntry l n e).lookup n = some e := by
  induction l with
  | nil => simp [setEntry, List.lookup]
  | cons p rest ih =>
    rcases p with ⟨k, w⟩
    by_cases hk : k = n
    · simp [setEntry, hk, List.lookup]
    · simp only [setEntry, if_neg hk, List.lookup]
      have : (n == k) = false := by simp [Ne.symm hk]
      simp [this, ih]

theorem lookup_setSession_self (l : List (String × Verdict)) (n : String) (v : Verdict) :
    (setSession l n v).lookup n = some v := by
  induction l with
  | nil => simp [setSession, List.lookup]
  | cons p rest ih =>
    rcases p with ⟨k, w⟩
    by_cases hk : k = n
    · simp [setSession, hk, List.lookup]
    · simp only [setSession, if_neg hk, List.lookup]
      have : (n == k) = false := by simp [Ne.symm hk]
      simp [this, ih]

/-! ### C5: cache TTL boundary -/

/-- C5: a cache entry written by `CacheManager.set` at time `now` with
time-to-live `cache_ttl` is still returned by `CacheManager.get` at time
`now + cache_ttl - 1` and is treated as absent at `now + cache_ttl + 1`. -/
theorem cache_entry_ttl_boundary (cm : CacheManager) (now : Int) (crate_name : String)
    (exists_ : Bool) (message : String) (packages : List String) :
    ((cm.set now crate_name exists_ message packages).get
        (now + cm.cache_ttl - 1) crate_name = some (exists_, message, packages)) ∧
    ((cm.set now crate_name exists_ message packages).get
        (now + cm.cache_ttl + 1) crate_name = none) := by
  have hl := lookup_setEntry_self cm.entries crate_name
    ⟨exists_, message, packages, now⟩
  constructor
  · simp only [CacheManager.get, CacheManager.set, hl]
    have : ¬ (now + cm.cache_ttl - 1 - now > cm.cache_ttl) := by omega
    simp [this]
  · simp only [CacheManager.get, CacheManager.set, hl]
    have : now + cm.cache_ttl + 1 - now > cm.cache_ttl := by omega
    simp [this]

/-! ### C1: the first-party exclusion applies only to the Provides list -/

theorem partition_foldl_append (L : List (String × String)) (results : String → Verdict)
    (b p : List String) :
    L.foldl
        (fun acc nv =>
          if (results nv.1).1 then (acc.1 ++ [brLine nv.1], acc.2)
          else if nv.1 ∈ gooseCrates then acc
          else (acc.1, acc.2 ++ [provLine nv.1 nv.2]))
        (b, p) =
      (b ++ (L.filter (fun nv => (results nv.1).1)).map (fun nv => brLine nv.1),
       p ++ (L.filter
              (fun nv => !(results nv.1).1 && !(decide (nv.1 ∈ gooseCrates)))).map
            (fun nv => provLine nv.1 nv.2)) := by
  induction L generalizing b p with
  | nil => simp
  | cons nv L ih =>
    by_cases h1 : (results nv.1).1
    · simp [h1, ih]
    · by_cases h2 : nv.1 ∈ gooseCrates
      · simp [h1, h2, ih]
      · simp [h1, h2, ih]

/-- C1 (amended): in the partition step of `update_spec`, the first-party
exclusion set is applied only in the negative-verdict branch.  The Provides
list consists of exactly the sorted missing dependencies whose name is not a
goose crate — so an excluded name never appears there — while the
BuildRequires list consists of exactly the sorted found dependencies with no
exclusion applied, so an excluded name with a positive verdict does get a
BuildRequires line. -/
theorem partition_excludes_first_party_only_from_provides
    (deps : List (String × String)) (results : String → Verdict) :
    partitionDeps deps results =
      (((sortDeps deps).filter (fun nv => (results nv.1).1)).map (fun nv => brLine nv.1),
       ((sortDeps deps).filter
          (fun nv => !(results nv.1).1 && !(decide (nv.1 ∈ gooseCrates)))).map
        (fun nv => provLine nv.1 nv.2)) := by
  unfold partitionDeps
  rw [partition_foldl_append]
  simp

/-- C1 counterexample: the dependency `goose` is in the exclusion set, yet
with a positive existence verdict the generated BuildRequires list contains
its line — the claim that excluded names appear in neither list regardless
of verdict is false. -/
theorem excluded_goose_with_positive_verdict_gets_buildrequires :
    brLine "goose" ∈
      (partitionDeps [("goose", "1.0.0")]
        (fun _ => (true, "✓ rust-goose-devel", ["rust-goose-devel"]))).1 := by
  unfold partitionDeps sortDeps
  rw [List.mergeSort_singleton]
  simp

/-! ### C9: missing markers abort the patch with no partial write -/

/-- C9: when either marker pair is absent from the descriptor, `update_spec`
raises (models the `ValueError`) and the spec-update step of `main` leaves
the file byte-for-byte unchanged and contributes a non-zero exit status; the
previously computed results are untouched (the step never looks at them
again on the error path). -/
theorem missing_markers_abort_without_write (file : List String)
    (dependencies : List (String × String)) (results : String → Verdict)
    (h : _find_buildrequires_section file = none ∨ _find_provides_section file = none) :
    (∃ e, update_spec file dependencies results false = .error e) ∧
    update_spec_step file dependencies results false = (file, 1) := by
  rcases h with h | h
  · refine ⟨⟨"Could not find # Rust dependencies markers in spec file", ?_⟩, ?_⟩
    · simp [update_spec, h]
    · simp [update_spec_step, update_spec, h]
  · cases hbr : _find_buildrequires_section file with
    | none =>
      refine ⟨⟨"Could not find # Rust dependencies markers in spec file", ?_⟩, ?_⟩
      · simp [update_spec, hbr]
      · simp [update_spec_step, update_spec, hbr]
    | some br =>
      refine ⟨⟨"Could not find # Bundled dependencies markers in spec file", ?_⟩, ?_⟩
      · simp [update_spec, hbr, h]
      · simp [update_spec_step, update_spec, hbr, h]

/-- Witness for C9 at a concrete descriptor with no markers. -/
theorem missing_markers_abort_without_write_witness :
    (∃ e, update_spec ["Name: goose"] [] (fun _ => (false, "", [])) false = .error e) ∧
    update_spec_step ["Name: goose"] [] (fun _ => (false, "", [])) false =
      (["Name: goose"], 1) :=
  missing_markers_abort_without_write ["Name: goose"] [] (fun _ => (false, "", []))
    (Or.inl (by decide))

/-! ### C10: an oracle error on the first pattern ends the check -/

/-- C10: when the oracle invocation for the first naming convention
`rust(<name>)` times out or fails, `check_crate` (on a fresh name: session
and persistent cache misses) immediately returns the negative verdict with an
empty package list, stores it in both caches via `_cache_result`, and never
queries the second pattern: the attempted-pattern list is exactly
`[rust(<name>)]`. -/
theorem first_pattern_error_skips_second_pattern
    (oracle : String → OracleResult) (now : Int) (ch : FedoraChecker)
    (cm : CacheManager) (crate_name : String)
    (h1 : ch.session_cache.lookup crate_name = none)
    (h2 : ch.cache_manager = some cm)
    (h3 : cm.get now crate_name = none)
    (h4 : oracle ("rust(" ++ crate_name ++ ")") = .timeout ∨
          ∃ e, oracle ("rust(" ++ crate_name ++ ")") = .failure e) :
    ∃ msg, check_crate oracle now ch crate_name =
      ((false, msg, []), _cache_result now ch crate_name (false, msg, []),
        ["rust(" ++ crate_name ++ ")"]) := by
  have hq : check_crate oracle now ch crate_name =
      check_crate_query oracle now ch crate_name := by
    simp only [check_crate, h1, h2, h3]
  rcases h4 with h4 | ⟨e, h4⟩
  · exact ⟨"⚠ Timeout while querying Fedora repos", by
      rw [hq]; unfold check_crate_query; simp only [h4]⟩
  · exact ⟨"⚠ Error: " ++ e, by
      rw [hq]; unfold check_crate_query; simp only [h4]⟩

/-- Witness for C10: a concrete checker whose oracle always times out. -/
theorem first_pattern_error_skips_second_pattern_witness :
    ∃ msg, check_crate (fun _ => OracleResult.timeout) 0
        ⟨some ⟨[], 86400⟩, []⟩ "foo" =
      ((false, msg, []),
        _cache_result 0 ⟨some ⟨[], 86400⟩, []⟩ "foo" (false, msg, []),
        ["rust(" ++ "foo" ++ ")"]) :=
  first_pattern_error_skips_second_pattern (fun _ => OracleResult.timeout) 0
    ⟨some ⟨[], 86400⟩, []⟩ ⟨[], 86400⟩ "foo" rfl rfl rfl (Or.inl rfl)

/-! ### C3: manifest discovery is sorted and deduplicated, but the root
manifest is not always first -/

theorem lexLe_total : ∀ a b : List Char, (lexLe a b || lexLe b a) = true := by
  intro a
  induction a with
  | nil => intro b; simp [lexLe]
  | cons x xs ih =>
    intro b
    cases b with
    | nil => simp [lexLe]
    | cons y ys =>
      simp only [lexLe]
      by_cases h1 : x < y
      · simp [h1]
      · by_cases h2 : y < x
        · simp [h1, h2]
        · simpa [h1, h2] using ih ys

theorem lexLe_trans :
    ∀ a b c : List Char, lexLe a b = true → lexLe b c = true → lexLe a c = true := by
  intro a
  induction a with
  | nil => intro b c _ _; simp [lexLe]
  | cons x xs ih =>
    intro b c hab hbc
    cases b with
    | nil => simp [lexLe] at hab
    | cons y ys =>
      cases c with
      | nil => simp [lexLe] at hbc
      | cons z zs =>
        simp only [lexLe] at hab hbc ⊢
        by_cases h1 : x < y
        · by_cases h3 : y < z
          · simp [lt_trans h1 h3]
          · by_cases h4 : z < y
            · simp [lexLe, h3, h4] at hbc
            · have hyz : y = z := le_antisymm (not_lt.1 h4) (not_lt.1 h3)
              subst hyz
              simp [h1]
        · by_cases h2 : y < x
          · simp [h1, h2] at hab
          · have hxy : x = y := le_antisymm (not_lt.1 h2) (not_lt.1 h1)
            subst hxy
            rw [if_neg (lt_irrefl x), if_neg (lt_irrefl x)] at hab
            by_cases h3 : x < z
            · simp [h3]
            · by_cases h4 : z < x
              · simp [h3, h4] at hbc
              · rw [if_neg h3, if_neg h4] at hbc ⊢
                exact ih ys zs hab hbc

theorem lexLe_antisymm :
    ∀ a b : List Char, lexLe a b = true → lexLe b a = true → a = b := by
  intro a
  induction a with
  | nil =>
    intro b _ hba
    cases b with
    | nil => rfl
    | cons y ys => simp [lexLe] at hba
  | cons x xs ih =>
    intro b hab hba
    cases b with
    | nil => simp [lexLe] at hab
    | cons y ys =>
      simp only [lexLe] at hab hba
      by_cases h1 : x < y
      · simp [h1, asymm h1, lt_irrefl] at hba
      · by_cases h2 : y < x
        · simp [h1, h2] at hab
        · have hxy : x = y := le_antisymm (not_lt.1 h2) (not_lt.1 h1)
          subst hxy
          rw [if_neg (lt_irrefl x), if_neg (lt_irrefl x)] at hab hba
          rw [ih ys hab hba]

theorem strLe_trans (a b c : String) :
    strLe a b = true → strLe b c = true → strLe a c = true :=
  lexLe_trans a.toList b.toList c.toList

theorem strLe_total (a b : String) : (strLe a b || strLe b a) = true :=
  lexLe_total a.toList b.toList

theorem strLe_antisymm (a b : String) :
    strLe a b = true → strLe b a = true → a = b := by
  intro h1 h2
  have h := lexLe_antisymm a.toList b.toList h1 h2
  cases a with
  | mk da =>
    cases b with
    | mk db => exact congrArg String.mk h

instance : IsAntisymm String (fun a b => strLe a b = true) := ⟨strLe_antisymm⟩

theorem sorted_mergeSort_strLe (l : List String) :
    (l.mergeSort strLe).Pairwise (fun a b => strLe a b = true) :=
  List.sorted_mergeSort (fun a b c => strLe_trans a b c) strLe_total l

/-- Evaluation lemma for `mergeSort strLe` (Python `sorted`): it equals any
permutation of the input that is sorted. -/
theorem mergeSort_strLe_eq {l l' : List String}
    (hp : l.Perm l') (hs : l'.Pairwise (fun a b => strLe a b = true)) :
    l.mergeSort strLe = l' :=
  List.eq_of_perm_of_sorted ((List.mergeSort_perm l strLe).trans hp)
    (sorted_mergeSort_strLe l) hs

theorem dedup_foldl_mem (root : String) (rg : List String) :
    ∀ (init : List String) (p : String),
      p ∈ rg.foldl
          (fun acc f => if f ≠ root ∧ f ∉ acc then acc ++ [f] else acc) init ↔
        p ∈ init ∨ (p ∈ rg ∧ p ≠ root) := by
  induction rg with
  | nil => simp
  | cons f rest ih =>
    intro init p
    rw [List.foldl_cons, ih]
    have hstep : (p ∈ if f ≠ root ∧ f ∉ init then init ++ [f] else init) ↔
        p ∈ init ∨ (p = f ∧ f ≠ root) := by
      by_cases h1 : f = root
      · rw [if_neg (fun hc => hc.1 h1)]
        constructor
        · exact fun h => Or.inl h
        · rintro (h | ⟨rfl, hne⟩)
          · exact h
          · exact absurd h1 hne
      · by_cases h2 : f ∈ init
        · rw [if_neg (fun hc => hc.2 h2)]
          constructor
          · exact fun h => Or.inl h
          · rintro (h | ⟨rfl, _⟩)
            · exact h
            · exact h2
        · rw [if_pos ⟨h1, h2⟩]
          simp only [List.mem_append, List.mem_singleton]
          constructor
          · rintro (h | h)
            · exact Or.inl h
            · exact Or.inr ⟨h, h1⟩
          · rintro (h | ⟨h, _⟩)
            · exact Or.inl h
            · exact Or.inr h
    rw [hstep]
    constructor
    · rintro ((h | ⟨rfl, hne⟩) | ⟨h, hne⟩)
      · exact Or.inl h
      · exact Or.inr ⟨List.mem_cons_self _ _, hne⟩
      · exact Or.inr ⟨List.mem_cons_of_mem _ h, hne⟩
    · rintro (h | ⟨h, hne⟩)
      · exact Or.inl (Or.inl h)
      · rcases List.mem_cons.1 h with rfl | h
        · exact Or.inl (Or.inr ⟨rfl, hne⟩)
        · exact Or.inr ⟨h, hne⟩

theorem dedup_foldl_nodup (root : String) (rg : List String) :
    ∀ init : List String, init.Nodup →
      (rg.foldl
        (fun acc f => if f ≠ root ∧ f ∉ acc then acc ++ [f] else acc) init).Nodup := by
  induction rg with
  | nil => intro init h; simpa using h
  | cons f rest ih =>
    intro init h
    rw [List.foldl_cons]
    by_cases hc : f ≠ root ∧ f ∉ init
    · refine ih _ ?_
      rw [if_pos hc]
      simp [List.nodup_append, h, hc.2]
    · rw [if_neg hc]
      exact ih _ h

/-- C3 (amended): `find_all_cargo_tomls` returns a deterministic,
path-deduplicated and lexicographically sorted sequence whose members are
exactly the root manifest (when it exists) together with every manifest the
recursive scan found; the root manifest is an element whenever it exists but
— the list being sorted — it need not be the first element. -/
theorem find_all_cargo_tomls_sorted_dedup_complete
    (cargo_toml_path : String) (root_exists : Bool) (rglob_results : List String) :
    (find_all_cargo_tomls cargo_toml_path root_exists rglob_results).Pairwise
        (fun a b => strLe a b = true) ∧
    (find_all_cargo_tomls cargo_toml_path root_exists rglob_results).Nodup ∧
    ∀ p, p ∈ find_all_cargo_tomls cargo_toml_path root_exists rglob_results ↔
      ((p = cargo_toml_path ∧ root_exists = true) ∨
        (p ∈ rglob_results ∧ p ≠ cargo_toml_path)) := by
  have hinit : (if root_exists then [cargo_toml_path] else ([] : List String)).Nodup := by
    cases root_exists <;> simp
  refine ⟨sorted_mergeSort_strLe _, ?_, ?_⟩
  · simp only [find_all_cargo_tomls]
    exact ((List.mergeSort_perm _ strLe).nodup_iff).2 (dedup_foldl_nodup _ _ _ hinit)
  · intro p
    unfold find_all_cargo_tomls
    rw [List.mem_mergeSort, dedup_foldl_mem]
    cases root_exists <;> simp [eq_comm]

/-- C3 counterexample: with the root manifest present and one manifest in a
subdirectory whose name sorts before `Cargo.toml` (uppercase letters precede
`C` only up to `B`, but also e.g. `AAA` does), the sorted result does not
start with the root manifest. -/
theorem root_manifest_not_always_first :
    ¬ ((find_all_cargo_tomls "d/Cargo.toml" true ["d/AAA/Cargo.toml"]).head?
        = some "d/Cargo.toml") := by
  have h0 : find_all_cargo_tomls "d/Cargo.toml" true ["d/AAA/Cargo.toml"]
      = List.mergeSort ["d/Cargo.toml", "d/AAA/Cargo.toml"] strLe := rfl
  have h1 : List.mergeSort ["d/Cargo.toml", "d/AAA/Cargo.toml"] strLe
      = ["d/AAA/Cargo.toml", "d/Cargo.toml"] :=
    mergeSort_strLe_eq (List.Perm.swap _ _ _) (by decide)
  rw [h0, h1]
  decide

/-! ### C4: completeness of the merged dependency set -/

theorem lookup_map_self {β : Type} (l : List String) (f : String → β) (n : String)
    (h : n ∈ l) :
    (l.map (fun x => (x, f x))).lookup n = some (f n) := by
  induction l with
  | nil => cases h
  | cons x xs ih =>
    rcases List.mem_cons.1 h with rfl | h
    · simp [List.lookup]
    · by_cases hx : n = x
      · subst hx; simp [List.lookup]
      · simp only [List.map_cons, List.lookup]
        have : (n == x) = false := by simp [hx]
        simp [this, ih h]

theorem lookup_addSource_ne (acc : List (String × List String)) (d p n : String)
    (h : n ≠ d) : (addSource acc d p).lookup n = acc.lookup n := by
  induction acc with
  | nil =>
    simp only [addSource, List.lookup]
    have : (n == d) = false := by simp [h]
    simp [this]
  | cons kv rest ih =>
    rcases kv with ⟨k, ps⟩
    by_cases hk : k = d
    · subst hk
      simp only [addSource, if_pos rfl, List.lookup]
      have : (n == k) = false := by simp [h]
      simp [this]
    · simp only [addSource, if_neg hk, List.lookup]
      by_cases hnk : n = k
      · subst hnk; simp
      · have : (n == k) = false := by simp [hnk]
        simp [this, ih]

theorem lookup_addSource_self_isSome (acc : List (String × List String)) (d p : String) :
    ((addSource acc d p).lookup d).isSome := by
  induction acc with
  | nil => simp [addSource, List.lookup]
  | cons kv rest ih =>
    rcases kv with ⟨k, ps⟩
    by_cases hk : k = d
    · subst hk; simp [addSource, List.lookup]
    · simp only [addSource, if_neg hk, List.lookup]
      have : (d == k) = false := by simp [Ne.symm hk]
      simp [this, ih]

theorem lookup_addSource_isSome_mono (acc : List (String × List String)) (d p n : String)
    (h : (acc.lookup n).isSome) : ((addSource acc d p).lookup n).isSome := by
  by_cases hn : n = d
  · subst hn; exact lookup_addSource_self_isSome acc n p
  · rw [lookup_addSource_ne acc d p n hn]; exact h

theorem lookup_foldl_addSource_isSome_mono (deps : List String) (path n : String) :
    ∀ acc : List (String × List String), (acc.lookup n).isSome →
      ((deps.foldl (fun a dep => addSource a dep path) acc).lookup n).isSome := by
  induction deps with
  | nil => intro acc h; simpa using h
  | cons d ds ih =>
    intro acc h
    rw [List.foldl_cons]
    exact ih _ (lookup_addSource_isSome_mono acc d path n h)

theorem lookup_foldl_addSource_isSome (deps : List String) (path n : String)
    (hn : n ∈ deps) :
    ∀ acc : List (String × List String),
      ((deps.foldl (fun a dep => addSource a dep path) acc).lookup n).isSome := by
  induction deps with
  | nil => cases hn
  | cons d ds ih =>
    intro acc
    rw [List.foldl_cons]
    rcases List.mem_cons.1 hn with rfl | hn
    · exact lookup_foldl_addSource_isSome_mono ds path n _
        (lookup_addSource_self_isSome acc n path)
    · exact ih hn _

theorem lookup_map_pair {α β : Type} (l : List (String × α)) (g : String → α → β)
    (n : String) :
    (l.map (fun p => (p.1, g p.1 p.2))).lookup n = (l.lookup n).map (g n) := by
  induction l with
  | nil => simp
  | cons kv rest ih =>
    rcases kv with ⟨k, a⟩
    by_cases hk : n = k
    · subst hk; simp [List.lookup]
    · simp only [List.map_cons, List.lookup]
      have : (n == k) = false := by simp [hk]
      simp [this, ih]

theorem dep_sources_outer_isSome (files : List (String × String)) (n : String) :
    ∀ acc : List (String × List String),
      ((∃ f ∈ files, n ∈ parse_single_cargo_toml (some f.2)) ∨ (acc.lookup n).isSome) →
      ((files.foldl
          (fun a cargo_file =>
            (parse_single_cargo_toml (some cargo_file.2)).foldl
              (fun a2 dep => addSource a2 dep cargo_file.1) a)
          acc).lookup n).isSome := by
  induction files with
  | nil =>
    intro acc h
    rcases h with ⟨f, hf, _⟩ | h
    · cases hf
    · simpa using h
  | cons f fs ih =>
    intro acc h
    rw [List.foldl_cons]
    rcases h with ⟨g, hg, hmem⟩ | h
    · rcases List.mem_cons.1 hg with rfl | hg
      · exact ih _ (Or.inr (lookup_foldl_addSource_isSome _ _ _ hmem _))
      · exact ih _ (Or.inl ⟨g, hg, hmem⟩)
    · exact ih _ (Or.inr (lookup_foldl_addSource_isSome_mono _ _ _ _ h))

/-- C4: every name in the direct-dependency set appears in the merged
result, bound to the lockfile's resolved version when the lockfile has an
entry for it and to the sentinel `"unknown"` otherwise — both for the
root-manifest variant `get_direct_dependencies` and for the all-crates
variant `get_all_direct_dependencies_with_sources`. -/
theorem merged_dependency_set_complete :
    (∀ (toml lock : Option String) (n : String), n ∈ parse_single_cargo_toml toml →
      (get_direct_dependencies toml lock).lookup n =
        some (((parse_cargo_lock lock).lookup n).getD "unknown")) ∧
    (∀ (files : List (String × String)) (lock : Option String) (n : String),
      (∃ f ∈ files, n ∈ parse_single_cargo_toml (some f.2)) →
      ∃ srcs, (get_all_direct_dependencies_with_sources files lock).lookup n =
        some (((parse_cargo_lock lock).lookup n).getD "unknown", srcs)) := by
  constructor
  · intro toml lock n hn
    unfold get_direct_dependencies
    exact lookup_map_self _ _ n hn
  · intro files lock n hex
    simp only [get_all_direct_dependencies_with_sources]
    have hsome := dep_sources_outer_isSome files n [] (Or.inl hex)
    rcases Option.isSome_iff_exists.1 hsome with ⟨srcs, hsrcs⟩
    refine ⟨srcs, ?_⟩
    rw [lookup_map_pair _
      (fun k srcs2 => (((parse_cargo_lock lock).lookup k).getD "unknown", srcs2)) n]
    rw [hsrcs]
    rfl

/-- Witness for C4: `serde` is in the lockfile (resolved to `1.0.210`),
`tokio` is not (resolved to `"unknown"`), in both variants. -/
theorem merged_dependency_set_complete_witness :
    ((get_direct_dependencies (some "[dependencies]\nserde = \"1\"\ntokio = \"1\"")
        (some "[[package]]\nname = \"serde\"\nversion = \"1.0.210\"")).lookup "serde" =
      some "1.0.210") ∧
    ((get_direct_dependencies (some "[dependencies]\nserde = \"1\"\ntokio = \"1\"")
        (some "[[package]]\nname = \"serde\"\nversion = \"1.0.210\"")).lookup "tokio" =
      some "unknown") ∧
    (∃ srcs, (get_all_direct_dependencies_with_sources
        [("Cargo.toml", "[dependencies]\ntokio = \"1\"")] none).lookup "tokio" =
      some ("unknown", srcs)) := by
  refine ⟨?_, ?_, ?_⟩
  · have h := merged_dependency_set_complete.1
      (some "[dependencies]\nserde = \"1\"\ntokio = \"1\"")
      (some "[[package]]\nname = \"serde\"\nversion = \"1.0.210\"") "serde" (by decide)
    rw [h]; decide
  · have h := merged_dependency_set_complete.1
      (some "[dependencies]\nserde = \"1\"\ntokio = \"1\"")
      (some "[[package]]\nname = \"serde\"\nversion = \"1.0.210\"") "tokio" (by decide)
    rw [h]; decide
  · have h := merged_dependency_set_complete.2
      [("Cargo.toml", "[dependencies]\ntokio = \"1\"")] none "tokio"
      ⟨("Cargo.toml", "[dependencies]\ntokio = \"1\""), by decide, by decide⟩
    rcases h with ⟨srcs, hs⟩
    refine ⟨srcs, ?_⟩
    simpa [parse_cargo_lock] using hs

/-! ### C7: within a lockfile record the last name/version field wins -/

theorem getLast?_cons_or {α : Type} (a : α) (l : List α) :
    (a :: l).getLast? = l.getLast?.or (some a) := by
  induction l generalizing a with
  | nil => simp
  | cons b t ih =>
    rw [List.getLast?_cons_cons, ih b]
    cases t.getLast? <;> simp [Option.or]

theorem foldl_update_getLast {α : Type} (f : String → Option α) :
    ∀ (fs : List String) (c0 : Option α),
      fs.foldl (fun c l => match f l with | some w => some w | none => c) c0
        = (fs.filterMap f).getLast?.or c0 := by
  intro fs
  induction fs with
  | nil => intro c0; simp
  | cons l fs ih =>
    intro c0
    rw [List.foldl_cons]
    cases hf : f l with
    | none => simp only [hf, List.filterMap_cons_none hf, ih]
    | some w =>
      simp only [hf, List.filterMap_cons_some hf, ih (some w), getLast?_cons_or,
        Option.or_assoc]
      cases (fs.filterMap f).getLast? <;> simp [Option.or]

theorem keyQuoted_some_isPrefixOf (kw l : List Char) (w : String)
    (h : keyQuoted kw l = some w) : kw.isPrefixOf l = true := by
  by_contra hb
  rw [keyQuoted, if_neg hb] at h
  cases h

theorem name_version_exclusive (l : List Char) (w : String)
    (h : keyQuoted "name".toList l = some w) :
    keyQuoted "version".toList l = none := by
  have hpre := keyQuoted_some_isPrefixOf _ _ _ h
  cases l with
  | nil => simp [List.isPrefixOf] at hpre
  | cons c cs =>
    have hc : c = 'n' := by
      have hred : ("name".toList).isPrefixOf (c :: cs)
          = (('n' == c) && ("ame".toList).isPrefixOf cs) := rfl
      rw [hred, Bool.and_eq_true, beq_iff_eq] at hpre
      exact hpre.1.symm
    subst hc
    rw [keyQuoted, if_neg]
    intro hv
    have hred : ("version".toList).isPrefixOf ('n' :: cs)
        = (('v' == 'n') && ("ersion".toList).isPrefixOf cs) := rfl
    rw [hred] at hv
    simp at hv

theorem lock_fields_fold (fs : List String) :
    ∀ (cn cv : Option String) (acc : List (String × String)),
      (∀ l ∈ fs, pkgStartLine (pyStrip l).toList = false) →
      fs.foldl lockStep (cn, cv, acc) =
        ((fs.filterMap (fun l => keyQuoted "name".toList (pyStrip l).toList)).getLast?.or cn,
         (fs.filterMap
            (fun l => keyQuoted "version".toList (pyStrip l).toList)).getLast?.or cv,
         acc) := by
  induction fs with
  | nil => intro cn cv acc _; simp
  | cons l fs ih =>
    intro cn cv acc h
    have hpkg : pkgStartLine (pyStrip l).toList = false := h l (List.mem_cons_self _ _)
    have hrest : ∀ l' ∈ fs, pkgStartLine (pyStrip l').toList = false :=
      fun l' hl' => h l' (List.mem_cons_of_mem _ hl')
    rw [List.foldl_cons]
    cases hn : keyQuoted "name".toList (pyStrip l).toList with
    | some w =>
      have hv := name_version_exclusive _ _ hn
      have hstep : lockStep (cn, cv, acc) l = (some w, cv, acc) := by
        simp only [lockStep, hpkg, Bool.false_eq_true, if_false, hn]
      rw [hstep, ih _ _ _ hrest]
      simp only [List.filterMap_cons, hn, hv]
      rw [getLast?_cons_or, Option.or_assoc]
      rfl
    | none =>
      cases hv : keyQuoted "version".toList (pyStrip l).toList with
      | some w =>
        have hstep : lockStep (cn, cv, acc) l = (cn, some w, acc) := by
          simp only [lockStep, hpkg, Bool.false_eq_true, if_false, hn, hv]
        rw [hstep, ih _ _ _ hrest]
        simp only [List.filterMap_cons, hn, hv]
        rw [getLast?_cons_or, Option.or_assoc]
        rfl
      | none =>
        have hstep : lockStep (cn, cv, acc) l = (cn, cv, acc) := by
          simp only [lockStep, hpkg, Bool.false_eq_true, if_false, hn, hv]
        rw [hstep, ih _ _ _ hrest]
        simp only [List.filterMap_cons, hn, hv]

/-- C7 (amended): within each lockfile record, `parse_cargo_lock` keeps the
last `name = "..."` field and the last `version = "..."` field seen before
the next record-start marker (each later field overwrites the earlier one,
not the first as claimed), and a record lacking either field contributes
nothing — `commitPackage` stores a pair only when both components are
present. -/
theorem lock_record_last_field_wins (cn cv : Option String)
    (acc : List (String × String)) (fs : List String)
    (h : ∀ l ∈ fs, pkgStartLine (pyStrip l).toList = false) :
    List.foldl lockStep (cn, cv, acc) ("[[package]]" :: fs) =
      ((fs.filterMap (fun l => keyQuoted "name".toList (pyStrip l).toList)).getLast?,
       (fs.filterMap (fun l => keyQuoted "version".toList (pyStrip l).toList)).getLast?,
       commitPackage cn cv acc) := by
  rw [List.foldl_cons]
  have hstep : lockStep (cn, cv, acc) "[[package]]" = (none, none, commitPackage cn cv acc) := by
    simp only [lockStep]
    rw [if_pos (by decide : pkgStartLine (pyStrip "[[package]]").toList = true)]
  rw [hstep, lock_fields_fold fs none none _ h]
  cases hn : (fs.filterMap (fun l => keyQuoted "name".toList (pyStrip l).toList)).getLast? <;>
    cases hv : (fs.filterMap
        (fun l => keyQuoted "version".toList (pyStrip l).toList)).getLast? <;>
    simp [Option.or]

/-- Witness for C7 (amended) at a concrete record with two name fields. -/
theorem lock_record_last_field_wins_witness :
    List.foldl lockStep (none, none, ([] : List (String × String)))
      ("[[package]]" :: ["name = \"a\"", "name = \"b\"", "version = \"1.0\""]) =
      (some "b", some "1.0", []) := by
  have h := lock_record_last_field_wins none none []
    ["name = \"a\"", "name = \"b\"", "version = \"1.0\""] (by decide)
  rw [h]
  decide

/-- C7 counterexample: in a record carrying `name = "a"` then `name = "b"`,
the first captured name `a` is not in the resulting mapping — the last one
is — so the claim that the first field is captured is false. -/
theorem lock_first_name_field_not_captured :
    ((parse_cargo_lock
        (some "[[package]]\nname = \"a\"\nname = \"b\"\nversion = \"1.0\"")).lookup "a"
      = none) ∧
    ((parse_cargo_lock
        (some "[[package]]\nname = \"a\"\nname = \"b\"\nversion = \"1.0\"")).lookup "b"
      = some "1.0") := by
  decide

/-! ### C8: the section-header regex is case-sensitive -/

theorem infixOfB_iff (n : List Char) : ∀ h : List Char, infixOfB n h = true ↔ n <:+: h := by
  intro h
  induction h with
  | nil =>
    simp only [infixOfB, List.isEmpty_iff, List.infix_nil]
  | cons c rest ih =>
    simp only [infixOfB, Bool.or_eq_true, List.isPrefixOf_iff_prefix, ih,
      List.infix_cons_iff]

theorem findGroupLenAux_none (rest : List Char) :
    ∀ m, findGroupLenAux rest m = none → ∀ k, k < m → groupEndsAt rest k = false := by
  intro m
  induction m with
  | zero => intro _ k hk; omega
  | succ m ih =>
    intro h k hk
    by_cases hp : groupEndsAt rest m
    · rw [findGroupLenAux, if_pos hp] at h; cases h
    · rw [findGroupLenAux, if_neg hp] at h
      rcases Nat.lt_succ_iff_lt_or_eq.1 hk with hk | rfl
      · exact ih h k hk
      · exact Bool.eq_false_iff.2 hp

theorem findGroupLenAux_some (rest : List Char) :
    ∀ m k, findGroupLenAux rest m = some k → groupEndsAt rest k = true ∧ k < m := by
  intro m
  induction m with
  | zero => intro k h; cases h
  | succ m ih =>
    intro k h
    by_cases hp : groupEndsAt rest m
    · rw [findGroupLenAux, if_pos hp] at h
      cases h
      exact ⟨hp, Nat.lt_succ_self m⟩
    · rw [findGroupLenAux, if_neg hp] at h
      rcases ih k h with ⟨h1, h2⟩
      exact ⟨h1, Nat.lt_succ_of_lt h2⟩

theorem sectionOpens_of_sectionGroup_some (l : List Char) (g : List Char)
    (h : sectionGroup l = some g) : sectionOpens l = true := by
  cases l with
  | nil => cases h
  | cons c rest =>
    by_cases hc : c = '['
    · subst hc
      rw [sectionGroup, if_pos rfl] at h
      rcases Option.map_eq_some'.1 h with ⟨k, hk, _⟩
      rcases findGroupLenAux_some rest _ k hk with ⟨h1, h2⟩
      simp only [sectionOpens, List.any_eq_true, decide_True, Bool.true_and]
      exact ⟨k, List.mem_range.2 h2, h1⟩
    · rw [sectionGroup, if_neg hc] at h; cases h

theorem sectionOpens_eq_false_of_sectionGroup_none (l : List Char)
    (h : sectionGroup l = none) : sectionOpens l = false := by
  cases l with
  | nil => rfl
  | cons c rest =>
    by_cases hc : c = '['
    · rw [sectionGroup, if_pos hc] at h
      have hf : findGroupLenAux rest rest.length = none := by
        cases hfa : findGroupLenAux rest rest.length with
        | none => rfl
        | some k => rw [hfa] at h; cases h
      have hall := findGroupLenAux_none rest _ hf
      simp only [sectionOpens, Bool.and_eq_false_iff]
      right
      rw [List.any_eq_false]
      intro k hk
      rw [hall k (List.mem_range.1 hk)]
      simp
    · simp only [sectionOpens, Bool.and_eq_false_iff]
      left
      simp [hc]

theorem toLower_depsWord : depsWord.map Char.toLower = depsWord := by decide

theorem sectionGroup_some_lower (l g : List Char) (h : sectionGroup l = some g) :
    infixOfB depsWord (g.map Char.toLower) = true := by
  cases l with
  | nil => cases h
  | cons c rest =>
    by_cases hc : c = '['
    · rw [sectionGroup, if_pos hc] at h
      rcases Option.map_eq_some'.1 h with ⟨k, hk, hg⟩
      rcases findGroupLenAux_some rest _ k hk with ⟨h1, _⟩
      have h2 : infixOfB depsWord (rest.take k) = true := by
        simp only [groupEndsAt, Bool.and_eq_true] at h1
        exact h1.2
      have h3 : depsWord <:+: rest.take k := (infixOfB_iff _ _).1 h2
      have h4 : depsWord.map Char.toLower <:+: (rest.take k).map Char.toLower :=
        List.IsInfix.map Char.toLower h3
      rw [toLower_depsWord] at h4
      rw [← hg]
      exact (infixOfB_iff _ _).2 h4
    · rw [sectionGroup, if_neg hc] at h; cases h

/-- C8 (amended): the line loop of `parse_single_cargo_toml` behaves exactly
as `tomlStepSpec` describes: a `[<ident>]` line opens a dependencies section
exactly when the header contains the *lowercase* literal `dependencies`
followed somewhere by a closing bracket — the regex
`^\[(.*dependencies.*)\]` is case-sensitive, so `[Dependencies]` does not
open a section (the subsequent case-insensitive `.lower()` containment check
is always true when the regex matched and therefore dead); inside a section
every `<name> = ...` line with name in `[A-Za-z0-9_-]+` is collected until
any other `[...]` line exits the section. -/
theorem tomlStep_eq_tomlStepSpec (st : Bool × List String) (rawLine : String) :
    tomlStep st rawLine = tomlStepSpec st rawLine := by
  simp only [tomlStep, tomlStepSpec]
  cases hsg : sectionGroup (pyStrip rawLine).toList with
  | some g =>
    have ho : sectionOpens (pyStrip rawLine).data = true :=
      sectionOpens_of_sectionGroup_some _ _ hsg
    have hl : infixOfB depsWord (g.map Char.toLower) = true :=
      sectionGroup_some_lower _ _ hsg
    simp [hsg, ho, hl]
  | none =>
    have ho : sectionOpens (pyStrip rawLine).data = false :=
      sectionOpens_eq_false_of_sectionGroup_none _ hsg
    simp [hsg, ho]

/-- C8 counterexample: the claim says `[Dependencies]` opens a dependencies
section, so `foo` would be collected; the case-sensitive regex does not
match the capitalised header and the parse result is empty. -/
theorem capitalized_dependencies_header_does_not_open :
    "foo" ∉ parse_single_cargo_toml (some "[Dependencies]\nfoo = \"1\"") := by
  decide

/-! ### C6: every fresh verdict is written to both caches and memoized -/

theorem check_crate_query_shape (oracle : String → OracleResult) (now : Int)
    (ch : FedoraChecker) (crate_name : String) :
    ∃ v att, check_crate_query oracle now ch crate_name =
      (v, _cache_result now ch crate_name v, att) := by
  simp only [check_crate_query]
  cases ho1 : oracle ("rust(" ++ crate_name ++ ")") with
  | timeout => exact ⟨_, _, rfl⟩
  | failure e => exact ⟨_, _, rfl⟩
  | ran rc out =>
    dsimp only
    cases hs1 : oracleSuccess rc out with
    | some v => exact ⟨_, _, rfl⟩
    | none =>
      cases ho2 : oracle ("rust-" ++ crate_name ++ "-devel") with
      | timeout => exact ⟨_, _, rfl⟩
      | failure e => exact ⟨_, _, rfl⟩
      | ran rc2 out2 =>
        dsimp only
        cases hs2 : oracleSuccess rc2 out2 with
        | some v => exact ⟨_, _, rfl⟩
        | none => exact ⟨_, _, rfl⟩

theorem cache_get_after_set (cm : CacheManager) (now now2 : Int) (crate_name : String)
    (exists_ : Bool) (message : String) (packages : List String)
    (h : now2 - now ≤ cm.cache_ttl) :
    (cm.set now crate_name exists_ message packages).get now2 crate_name =
      some (exists_, message, packages) := by
  simp only [CacheManager.get, CacheManager.set, lookup_setEntry_self]
  rw [if_neg (by omega)]

/-- C6: on a fresh crate name (session memo miss and persistent-cache miss),
whatever verdict `check_crate` produces — positive, not-found, timeout, or
invocation error — is written to the session memo and to the persistent
cache (with timestamp `now`) before being returned, and any later check of
the same name against that persisted cache within the TTL (with a fresh
session and any oracle) returns the identical verdict while querying no
pattern at all. -/
theorem check_crate_writes_both_caches_and_memoizes
    (oracle : String → OracleResult) (now : Int) (ch : FedoraChecker)
    (cm : CacheManager) (crate_name : String)
    (h1 : ch.session_cache.lookup crate_name = none)
    (h2 : ch.cache_manager = some cm)
    (h3 : cm.get now crate_name = none) :
    ∃ (v : Verdict) (ch' : FedoraChecker) (att : List String),
      check_crate oracle now ch crate_name = (v, ch', att) ∧
      ch'.session_cache.lookup crate_name = some v ∧
      (∃ cm', ch'.cache_manager = some cm' ∧ cm'.cache_ttl = cm.cache_ttl ∧
        cm'.entries.lookup crate_name = some ⟨v.1, v.2.1, v.2.2, now⟩) ∧
      (∀ (oracle2 : String → OracleResult) (now2 : Int), now2 - now ≤ cm.cache_ttl →
        ∃ st', check_crate oracle2 now2 ⟨ch'.cache_manager, []⟩ crate_name
          = (v, st', [])) := by
  have hq : check_crate oracle now ch crate_name =
      check_crate_query oracle now ch crate_name := by
    simp only [check_crate, h1, h2, h3]
  rcases check_crate_query_shape oracle now ch crate_name with ⟨v, att, hv⟩
  refine ⟨v, _, att, by rw [hq, hv], ?_, ?_, ?_⟩
  · exact lookup_setSession_self _ _ _
  · refine ⟨cm.set now crate_name v.1 v.2.1 v.2.2, ?_, rfl, ?_⟩
    · simp only [_cache_result, h2, Option.map_some']
    · simp only [CacheManager.set]
      exact lookup_setEntry_self _ _ _
  · intro oracle2 now2 httl
    have hcm' : (_cache_result now ch crate_name v).cache_manager
        = some (cm.set now crate_name v.1 v.2.1 v.2.2) := by
      simp only [_cache_result, h2, Option.map_some']
    rw [hcm']
    have hget : (cm.set now crate_name v.1 v.2.1 v.2.2).get now2 crate_name
        = some v := cache_get_after_set cm now now2 crate_name v.1 v.2.1 v.2.2 httl
    refine ⟨⟨some (cm.set now crate_name v.1 v.2.1 v.2.2),
      setSession [] crate_name v⟩, ?_⟩
    simp only [check_crate, List.lookup_nil, hget]

/-- Witness for C6: a fresh checker over an empty persistent cache, with an
oracle that finds the crate on the first pattern. -/
theorem check_crate_writes_both_caches_and_memoizes_witness :
    ∃ (v : Verdict) (ch' : FedoraChecker) (att : List String),
      check_crate (fun _ => OracleResult.ran 0 "rust-serde-devel") 0
        ⟨some ⟨[], 86400⟩, []⟩ "serde" = (v, ch', att) ∧
      ch'.session_cache.lookup "serde" = some v ∧
      (∃ cm', ch'.cache_manager = some cm' ∧
        cm'.cache_ttl = (⟨[], 86400⟩ : CacheManager).cache_ttl ∧
        cm'.entries.lookup "serde" = some ⟨v.1, v.2.1, v.2.2, 0⟩) ∧
      (∀ (oracle2 : String → OracleResult) (now2 : Int),
        now2 - 0 ≤ (⟨[], 86400⟩ : CacheManager).cache_ttl →
        ∃ st', check_crate oracle2 now2 ⟨ch'.cache_manager, []⟩ "serde"
          = (v, st', [])) :=
  check_crate_writes_both_caches_and_memoizes
    (fun _ => OracleResult.ran 0 "rust-serde-devel") 0
    ⟨some ⟨[], 86400⟩, []⟩ ⟨[], 86400⟩ "serde" rfl rfl rfl

/-! ### C2: idempotence of the marker-delimited patch

The proof decomposes a well-formed descriptor around its marker lines,
characterises `_update_lines` as a splice between the markers, recomputes the
marker indices on the patched file, and shows the second splice reproduces
it.  Helper lemmas first. -/

theorem listGetD_eq (l : List String) (i : Nat) (h : i < l.length) :
    l.getD i "" = l[i] := by
  rw [List.getD_eq_getElem?_getD, List.getElem?_eq_getElem h]
  rfl

theorem getD_concat (X : List String) (y : String) (R : List String) :
    (X ++ y :: R).getD X.length "" = y := by
  induction X with
  | nil => rfl
  | cons x X ih =>
    simp only [List.cons_append, List.length_cons, List.getD_cons_succ]
    exact ih

theorem drop_concat (X : List String) (y : String) (R : List String) :
    (X ++ y :: R).drop (X.length + 1) = R := by
  induction X with
  | nil => rfl
  | cons x X ih =>
    simp only [List.cons_append, List.length_cons, List.drop_succ_cons]
    exact ih

theorem take_concat (X R : List String) : (X ++ R).take X.length = X :=
  List.take_left X R

theorem drop_concat0 (X R : List String) : (X ++ R).drop X.length = R :=
  List.drop_left X R

theorem updateAux_tail (lines : List String) (brS brE pS pE : Nat)
    (X1 X2 : List String) :
    ∀ (fuel i : Nat), brS < i → pS < i → lines.length ≤ fuel + i →
      updateLinesAux lines brS brE pS pE X1 X2 fuel i = lines.drop i := by
  intro fuel
  induction fuel with
  | zero =>
    intro i _ _ hlen
    rw [updateLinesAux]
    exact (List.drop_eq_nil_of_le (by omega)).symm
  | succ fuel ih =>
    intro i hbr hps hlen
    by_cases hlt : i < lines.length
    · rw [updateLinesAux, if_pos hlt, if_neg (by omega), if_neg (by omega),
        ih (i + 1) (by omega) (by omega) (by omega),
        listGetD_eq lines i hlt]
      exact (List.drop_eq_getElem_cons hlt).symm
    · rw [updateLinesAux, if_neg hlt]
      exact (List.drop_eq_nil_of_le (by omega)).symm

theorem updateAux_mid (lines : List String) (brS brE pS pE : Nat)
    (X1 X2 : List String) (h1 : brS < brE) (h2 : brE < pS) (h3 : pS < pE)
    (h4 : pE < lines.length) :
    ∀ (fuel i : Nat), brE < i → i ≤ pS → lines.length ≤ fuel + i →
      updateLinesAux lines brS brE pS pE X1 X2 fuel i
        = (lines.drop i).take (pS - i) ++
            lines.getD pS "" :: (X2 ++ lines.getD pE "" :: lines.drop (pE + 1)) := by
  intro fuel
  induction fuel with
  | zero => intro i _ hi2 hlen; omega
  | succ fuel ih =>
    intro i hi1 hi2 hlen
    have hlt : i < lines.length := by omega
    by_cases hps : i = pS
    · rw [updateLinesAux, if_pos hlt, if_neg (by omega), if_pos hps,
        updateAux_tail lines brS brE pS pE X1 X2 fuel (pE + 1) (by omega) (by omega)
          (by omega), hps]
      simp
    · rw [updateLinesAux, if_pos hlt, if_neg (by omega), if_neg hps,
        ih (i + 1) (by omega) (by omega) (by omega),
        listGetD_eq lines i hlt, List.drop_eq_getElem_cons hlt,
        (by omega : pS - i = (pS - (i + 1)) + 1), List.take_succ_cons,
        List.cons_append]

theorem updateAux_pre (lines : List String) (brS brE pS pE : Nat)
    (X1 X2 : List String) (h1 : brS < brE) (h2 : brE < pS) (h3 : pS < pE)
    (h4 : pE < lines.length) :
    ∀ (fuel i : Nat), i ≤ brS → lines.length ≤ fuel + i →
      updateLinesAux lines brS brE pS pE X1 X2 fuel i
        = (lines.drop i).take (brS - i) ++
            lines.getD brS "" :: (X1 ++ lines.getD brE "" ::
              ((lines.drop (brE + 1)).take (pS - (brE + 1)) ++
                lines.getD pS "" :: (X2 ++ lines.getD pE "" ::
                  lines.drop (pE + 1)))) := by
  intro fuel
  induction fuel with
  | zero => intro i hi hlen; omega
  | succ fuel ih =>
    intro i hi hlen
    have hlt : i < lines.length := by omega
    by_cases hbs : i = brS
    · rw [updateLinesAux, if_pos hlt, if_pos hbs,
        updateAux_mid lines brS brE pS pE X1 X2 h1 h2 h3 h4 fuel (brE + 1)
          (by omega) (by omega) (by omega), hbs]
      simp
    · rw [updateLinesAux, if_pos hlt, if_neg hbs, if_neg (by omega),
        ih (i + 1) (by omega) (by omega),
        listGetD_eq lines i hlt, List.drop_eq_getElem_cons hlt,
        (by omega : brS - i = (brS - (i + 1)) + 1), List.take_succ_cons,
        List.cons_append]

theorem update_lines_splice (A B C D E : List String) (s1 e1 s2 e2 : String)
    (X1 X2 : List String) :
    _update_lines (A ++ s1 :: (B ++ e1 :: (C ++ s2 :: (D ++ e2 :: E))))
        (A.length, A.length + B.length + 1)
        (A.length + B.length + C.length + 2,
         A.length + B.length + C.length + D.length + 3)
        X1 X2
      = A ++ s1 :: (X1 ++ e1 :: (C ++ s2 :: (X2 ++ e2 :: E))) := by
  set L := A ++ s1 :: (B ++ e1 :: (C ++ s2 :: (D ++ e2 :: E))) with hL
  have hlen : L.length = A.length + B.length + C.length + D.length + E.length + 4 := by
    simp only [hL, List.length_append, List.length_cons]
    omega
  have hassoc1 : L = (A ++ s1 :: B) ++ e1 :: (C ++ s2 :: (D ++ e2 :: E)) := by
    simp [hL, List.append_assoc]
  have hassoc2 : L = (A ++ s1 :: (B ++ e1 :: C)) ++ s2 :: (D ++ e2 :: E) := by
    simp [hL, List.append_assoc]
  have hassoc3 : L = (A ++ s1 :: (B ++ e1 :: (C ++ s2 :: D))) ++ e2 :: E := by
    simp [hL, List.append_assoc]
  have hg1 : L.getD A.length "" = s1 := by
    rw [hL]; exact getD_concat A s1 _
  have hg2 : L.getD (A.length + B.length + 1) "" = e1 := by
    rw [hassoc1,
      (by simp only [List.length_append, List.length_cons]; omega :
        A.length + B.length + 1 = (A ++ s1 :: B).length)]
    exact getD_concat _ e1 _
  have hg3 : L.getD (A.length + B.length + C.length + 2) "" = s2 := by
    rw [hassoc2,
      (by simp only [List.length_append, List.length_cons]; omega :
        A.length + B.length + C.length + 2 = (A ++ s1 :: (B ++ e1 :: C)).length)]
    exact getD_concat _ s2 _
  have hg4 : L.getD (A.length + B.length + C.length + D.length + 3) "" = e2 := by
    rw [hassoc3,
      (by simp only [List.length_append, List.length_cons]; omega :
        A.length + B.length + C.length + D.length + 3
          = (A ++ s1 :: (B ++ e1 :: (C ++ s2 :: D))).length)]
    exact getD_concat _ e2 _
  have hd1 : L.drop (A.length + B.length + 1 + 1) = C ++ s2 :: (D ++ e2 :: E) := by
    rw [hassoc1,
      (by simp only [List.length_append, List.length_cons]; omega :
        A.length + B.length + 1 + 1 = (A ++ s1 :: B).length + 1)]
    exact drop_concat _ e1 _
  have hd2 : L.drop (A.length + B.length + C.length + D.length + 3 + 1) = E := by
    rw [hassoc3,
      (by simp only [List.length_append, List.length_cons]; omega :
        A.length + B.length + C.length + D.length + 3 + 1
          = (A ++ s1 :: (B ++ e1 :: (C ++ s2 :: D))).length + 1)]
    exact drop_concat _ e2 _
  have ht1 : L.take A.length = A := by
    rw [hL]; exact take_concat A _
  rw [_update_lines]
  rw [updateAux_pre L A.length (A.length + B.length + 1)
    (A.length + B.length + C.length + 2)
    (A.length + B.length + C.length + D.length + 3) X1 X2
    (by omega) (by omega) (by omega) (by omega) L.length 0 (by omega) (by omega)]
  rw [List.drop_zero, Nat.sub_zero, ht1, hg1, hg2, hg3, hg4, hd1, hd2,
    (by omega : A.length + B.length + C.length + 2 - (A.length + B.length + 1 + 1)
      = C.length),
    take_concat C _]

theorem updateAux_mid2 (lines : List String) (brS brE pS pE : Nat)
    (X1 X2 : List String) (h1 : pS < pE) (h2 : pE < brS) (h3 : brS < brE)
    (h4 : brE < lines.length) :
    ∀ (fuel i : Nat), pE < i → i ≤ brS → lines.length ≤ fuel + i →
      updateLinesAux lines brS brE pS pE X1 X2 fuel i
        = (lines.drop i).take (brS - i) ++
            lines.getD brS "" :: (X1 ++ lines.getD brE "" :: lines.drop (brE + 1)) := by
  intro fuel
  induction fuel with
  | zero => intro i _ hi2 hlen; omega
  | succ fuel ih =>
    intro i hi1 hi2 hlen
    have hlt : i < lines.length := by omega
    by_cases hbs : i = brS
    · rw [updateLinesAux, if_pos hlt, if_pos hbs,
        updateAux_tail lines brS brE pS pE X1 X2 fuel (brE + 1) (by omega) (by omega)
          (by omega), hbs]
      simp
    · rw [updateLinesAux, if_pos hlt, if_neg hbs, if_neg (by omega),
        ih (i + 1) (by omega) (by omega) (by omega),
        listGetD_eq lines i hlt, List.drop_eq_getElem_cons hlt,
        (by omega : brS - i = (brS - (i + 1)) + 1), List.take_succ_cons,
        List.cons_append]

theorem updateAux_pre2 (lines : List String) (brS brE pS pE : Nat)
    (X1 X2 : List String) (h1 : pS < pE) (h2 : pE < brS) (h3 : brS < brE)
    (h4 : brE < lines.length) :
    ∀ (fuel i : Nat), i ≤ pS → lines.length ≤ fuel + i →
      updateLinesAux lines brS brE pS pE X1 X2 fuel i
        = (lines.drop i).take (pS - i) ++
            lines.getD pS "" :: (X2 ++ lines.getD pE "" ::
              ((lines.drop (pE + 1)).take (brS - (pE + 1)) ++
                lines.getD brS "" :: (X1 ++ lines.getD brE "" ::
                  lines.drop (brE + 1)))) := by
  intro fuel
  induction fuel with
  | zero => intro i hi hlen; omega
  | succ fuel ih =>
    intro i hi hlen
    have hlt : i < lines.length := by omega
    by_cases hps : i = pS
    · rw [updateLinesAux, if_pos hlt, if_neg (by omega), if_pos hps,
        updateAux_mid2 lines brS brE pS pE X1 X2 h1 h2 h3 h4 fuel (pE + 1)
          (by omega) (by omega) (by omega), hps]
      simp
    · rw [updateLinesAux, if_pos hlt, if_neg (by omega), if_neg (by omega),
        ih (i + 1) (by omega) (by omega),
        listGetD_eq lines i hlt, List.drop_eq_getElem_cons hlt,
        (by omega : pS - i = (pS - (i + 1)) + 1), List.take_succ_cons,
        List.cons_append]

theorem update_lines_splice2 (A D C B E : List String) (s1 e1 s2 e2 : String)
    (X1 X2 : List String) :
    _update_lines (A ++ s2 :: (D ++ e2 :: (C ++ s1 :: (B ++ e1 :: E))))
        (A.length + D.length + C.length + 2,
         A.length + D.length + C.length + B.length + 3)
        (A.length, A.length + D.length + 1)
        X1 X2
      = A ++ s2 :: (X2 ++ e2 :: (C ++ s1 :: (X1 ++ e1 :: E))) := by
  set L := A ++ s2 :: (D ++ e2 :: (C ++ s1 :: (B ++ e1 :: E))) with hL
  have hlen : L.length = A.length + D.length + C.length + B.length + E.length + 4 := by
    simp only [hL, List.length_append, List.length_cons]
    omega
  have hassoc1 : L = (A ++ s2 :: D) ++ e2 :: (C ++ s1 :: (B ++ e1 :: E)) := by
    simp [hL, List.append_assoc]
  have hassoc2 : L = (A ++ s2 :: (D ++ e2 :: C)) ++ s1 :: (B ++ e1 :: E) := by
    simp [hL, List.append_assoc]
  have hassoc3 : L = (A ++ s2 :: (D ++ e2 :: (C ++ s1 :: B))) ++ e1 :: E := by
    simp [hL, List.append_assoc]
  have hg1 : L.getD A.length "" = s2 := by
    rw [hL]; exact getD_concat A s2 _
  have hg2 : L.getD (A.length + D.length + 1) "" = e2 := by
    rw [hassoc1,
      (by simp only [List.length_append, List.length_cons]; omega :
        A.length + D.length + 1 = (A ++ s2 :: D).length)]
    exact getD_concat _ e2 _
  have hg3 : L.getD (A.length + D.length + C.length + 2) "" = s1 := by
    rw [hassoc2,
      (by simp only [List.length_append, List.length_cons]; omega :
        A.length + D.length + C.length + 2 = (A ++ s2 :: (D ++ e2 :: C)).length)]
    exact getD_concat _ s1 _
  have hg4 : L.getD (A.length + D.length + C.length + B.length + 3) "" = e1 := by
    rw [hassoc3,
      (by simp only [List.length_append, List.length_cons]; omega :
        A.length + D.length + C.length + B.length + 3
          = (A ++ s2 :: (D ++ e2 :: (C ++ s1 :: B))).length)]
    exact getD_concat _ e1 _
  have hd1 : L.drop (A.length + D.length + 1 + 1) = C ++ s1 :: (B ++ e1 :: E) := by
    rw [hassoc1,
      (by simp only [List.length_append, List.length_cons]; omega :
        A.length + D.length + 1 + 1 = (A ++ s2 :: D).length + 1)]
    exact drop_concat _ e2 _
  have hd2 : L.drop (A.length + D.length + C.length + B.length + 3 + 1) = E := by
    rw [hassoc3,
      (by simp only [List.length_append, List.length_cons]; omega :
        A.length + D.length + C.length + B.length + 3 + 1
          = (A ++ s2 :: (D ++ e2 :: (C ++ s1 :: B))).length + 1)]
    exact drop_concat _ e1 _
  have ht1 : L.take A.length = A := by
    rw [hL]; exact take_concat A _
  rw [_update_lines]
  rw [updateAux_pre2 L (A.length + D.length + C.length + 2)
    (A.length + D.length + C.length + B.length + 3)
    A.length (A.length + D.length + 1) X1 X2
    (by omega) (by omega) (by omega) (by omega) L.length 0 (by omega) (by omega)]
  rw [List.drop_zero, Nat.sub_zero, ht1, hg1, hg2, hg3, hg4, hd1, hd2,
    (by omega : A.length + D.length + C.length + 2 - (A.length + D.length + 1 + 1)
      = C.length),
    take_concat C _]

theorem findSectionAux_decomp (sM eM : String) :
    ∀ (lines : List String) (i : Nat) (st : Option Nat) (s e : Nat),
      findSectionAux sM eM lines i st = some (s, e) →
      ∃ (B C : List String) (el : String),
        lines = B ++ el :: C ∧ e = i + B.length ∧
        strContains el eM = true ∧ strContains el sM = false ∧
        (∀ l ∈ B, strContains l eM = true → strContains l sM = true) ∧
        ((∃ (B1 : List String) (sl : String) (B2 : List String),
            B = B1 ++ sl :: B2 ∧ s = i + B1.length ∧
            strContains sl sM = true ∧ ∀ l ∈ B2, strContains l sM = false) ∨
          (st = some s ∧ ∀ l ∈ B, strContains l sM = false)) := by
  intro lines
  induction lines with
  | nil => intro i st s e h; cases h
  | cons l ls ih =>
    intro i st s e h
    by_cases h1 : strContains l sM = true
    · simp only [findSectionAux, h1, if_true] at h
      rcases ih (i + 1) (some i) s e h with ⟨B, C, el, hdec, he, hel1, hel2, hB, hdisj⟩
      refine ⟨l :: B, C, el, by simp [hdec], by simp only [List.length_cons]; omega,
        hel1, hel2, ?_, ?_⟩
      · intro x hx hxe
        rcases List.mem_cons.1 hx with rfl | hx
        · exact h1
        · exact hB x hx hxe
      · rcases hdisj with ⟨B1, sl, B2, hB12, hs, hsl, hB2⟩ | ⟨hst, hBall⟩
        · refine Or.inl ⟨l :: B1, sl, B2, by simp [hB12], ?_, hsl, hB2⟩
          simp only [List.length_cons]
          omega
        · have hsi : s = i := by
            have := Option.some.inj hst
            omega
          refine Or.inl ⟨[], l, B, rfl, by simp [hsi], h1, hBall⟩
    · have h1f : strContains l sM = false := Bool.eq_false_iff.2 h1
      by_cases h2 : strContains l eM = true
      · simp only [findSectionAux, h1f, h2, Bool.false_eq_true, if_false, if_true] at h
        cases st with
        | none => simp at h
        | some s0 =>
          have hpair : s0 = s ∧ i = e := by
            have := Option.some.inj h
            exact Prod.mk.injEq _ _ _ _ ▸ this
          refine ⟨[], ls, l, rfl, ?_, h2, h1f, ?_, ?_⟩
          · simp [hpair.2]
          · intro x hx
            cases hx
          · refine Or.inr ⟨by rw [hpair.1], ?_⟩
            intro x hx
            cases hx
      · have h2f : strContains l eM = false := Bool.eq_false_iff.2 h2
        simp only [findSectionAux, h1f, h2f, Bool.false_eq_true, if_false] at h
        rcases ih (i + 1) st s e h with ⟨B, C, el, hdec, he, hel1, hel2, hB, hdisj⟩
        refine ⟨l :: B, C, el, by simp [hdec], by simp only [List.length_cons]; omega,
          hel1, hel2, ?_, ?_⟩
        · intro x hx hxe
          rcases List.mem_cons.1 hx with rfl | hx
          · exact absurd hxe h2
          · exact hB x hx hxe
        · rcases hdisj with ⟨B1, sl, B2, hB12, hs, hsl, hB2⟩ | ⟨hst, hBall⟩
          · refine Or.inl ⟨l :: B1, sl, B2, by simp [hB12], ?_, hsl, hB2⟩
            simp only [List.length_cons]
            omega
          · refine Or.inr ⟨hst, ?_⟩
            intro x hx
            rcases List.mem_cons.1 hx with rfl | hx
            · exact h1f
            · exact hBall x hx

theorem findSectionAux_skip (sM eM : String) :
    ∀ (pre tail : List String) (i : Nat) (st : Option Nat) (sl : String),
      (∀ l ∈ pre, strContains l eM = true → strContains l sM = true) →
      strContains sl sM = true →
      findSectionAux sM eM (pre ++ sl :: tail) i st
        = findSectionAux sM eM tail (i + pre.length + 1) (some (i + pre.length)) := by
  intro pre
  induction pre with
  | nil =>
    intro tail i st sl _ hsl
    simp only [List.nil_append, findSectionAux, hsl, if_true, List.length_nil,
      Nat.add_zero]
  | cons p pre ih =>
    intro tail i st sl hpre hsl
    have hrest : ∀ l ∈ pre, strContains l eM = true → strContains l sM = true :=
      fun l hl => hpre l (List.mem_cons_of_mem _ hl)
    by_cases hp : strContains p sM = true
    · rw [List.cons_append]
      simp only [findSectionAux, hp, if_true]
      rw [ih tail (i + 1) (some i) sl hrest hsl,
        (by simp only [List.length_cons]; omega :
          i + 1 + pre.length = i + (p :: pre).length)]
    · have hpf : strContains p sM = false := Bool.eq_false_iff.2 hp
      have hpe : strContains p eM = false := by
        by_contra hb
        have := hpre p (List.mem_cons_self _ _)
          (by revert hb; cases strContains p eM <;> simp)
        exact hp this
      rw [List.cons_append]
      simp only [findSectionAux, hpf, hpe, Bool.false_eq_true, if_false]
      rw [ih tail (i + 1) st sl hrest hsl,
        (by simp only [List.length_cons]; omega :
          i + 1 + pre.length = i + (p :: pre).length)]

theorem findSectionAux_hit (sM eM : String) :
    ∀ (X tail : List String) (j m : Nat) (el : String),
      (∀ l ∈ X, strContains l sM = false ∧ strContains l eM = false) →
      strContains el eM = true → strContains el sM = false →
      findSectionAux sM eM (X ++ el :: tail) j (some m) = some (m, j + X.length) := by
  intro X
  induction X with
  | nil =>
    intro tail j m el _ hel1 hel2
    simp only [List.nil_append, findSectionAux, hel2, hel1, Bool.false_eq_true,
      if_false, if_true, List.length_nil, Nat.add_zero]
  | cons x X ih =>
    intro tail j m el hX hel1 hel2
    have hx := hX x (List.mem_cons_self _ _)
    have hrest : ∀ l ∈ X, strContains l sM = false ∧ strContains l eM = false :=
      fun l hl => hX l (List.mem_cons_of_mem _ hl)
    rw [List.cons_append]
    simp only [findSectionAux, hx.1, hx.2, Bool.false_eq_true, if_false]
    rw [ih tail (j + 1) m el hrest hel1 hel2,
      (by simp only [List.length_cons]; omega : j + 1 + X.length = j + (x :: X).length)]

theorem findSection_decomposed (sM eM : String) (pre X tail : List String)
    (sl el : String)
    (hpre : ∀ l ∈ pre, strContains l eM = true → strContains l sM = true)
    (hsl : strContains sl sM = true)
    (hX : ∀ l ∈ X, strContains l sM = false ∧ strContains l eM = false)
    (hel1 : strContains el eM = true) (hel2 : strContains el sM = false) :
    findSectionAux sM eM (pre ++ sl :: (X ++ el :: tail)) 0 none
      = some (pre.length, pre.length + 1 + X.length) := by
  rw [findSectionAux_skip sM eM pre (X ++ el :: tail) 0 none sl hpre hsl,
    findSectionAux_hit sM eM X tail (0 + pre.length + 1) (0 + pre.length) el hX hel1 hel2]
  simp only [Nat.zero_add]

theorem toList_append (a b : String) : (a ++ b).toList = a.toList ++ b.toList := by
  cases a
  cases b
  rfl

theorem mem_of_infixOfB (n h : List Char) (hinf : infixOfB n h = true) :
    ∀ c ∈ n, c ∈ h := fun _ hc => ((infixOfB_iff n h).1 hinf).subset hc

theorem strContains_eq_false_of_hash (l m : String)
    (hm : '#' ∈ m.toList) (hl : '#' ∉ l.toList) : strContains l m = false := by
  cases hc : strContains l m with
  | false => rfl
  | true => exact absurd (mem_of_infixOfB _ _ hc '#' hm) hl

theorem hash_not_in_brLine (n : String) (hn : '#' ∉ n.toList) :
    '#' ∉ (brLine n).toList := by
  simp only [brLine, toList_append, List.mem_append]
  rintro ((h | h) | h)
  · revert h; decide
  · exact hn h
  · revert h; decide

theorem hash_not_in_provLine (n v : String) (hn : '#' ∉ n.toList)
    (hv : '#' ∉ v.toList) : '#' ∉ (provLine n v).toList := by
  simp only [provLine, toList_append, List.mem_append]
  rintro (((h | h) | h) | h)
  · revert h; decide
  · exact hn h
  · revert h; decide
  · exact hv h

/-- The four marker strings of the spec-file patcher. -/
def specMarkers : List String :=
  ["# Rust dependencies", "# End rust dependencies",
   "# Bundled dependencies", "# End bundled dependencies"]

theorem partition_lines_no_marker (deps : List (String × String))
    (results : String → Verdict)
    (hdeps : ∀ nv ∈ deps, '#' ∉ nv.1.toList ∧ '#' ∉ nv.2.toList) :
    ∀ l ∈ (partitionDeps deps results).1 ++ (partitionDeps deps results).2,
      ∀ m ∈ specMarkers, strContains l m = false := by
  intro l hl m hm
  have hhm : '#' ∈ m.toList := by
    simp only [specMarkers, List.mem_cons, List.not_mem_nil, or_false] at hm
    rcases hm with rfl | rfl | rfl | rfl <;> decide
  have hhl : '#' ∉ l.toList := by
    rw [partition_excludes_first_party_only_from_provides] at hl
    rcases List.mem_append.1 hl with hl | hl
    · rcases List.mem_map.1 hl with ⟨nv, hnv, rfl⟩
      have hmem : nv ∈ deps := by
        have := (List.mem_filter.1 hnv).1
        simpa [sortDeps] using this
      exact hash_not_in_brLine nv.1 (hdeps nv hmem).1
    · rcases List.mem_map.1 hl with ⟨nv, hnv, rfl⟩
      have hmem : nv ∈ deps := by
        have := (List.mem_filter.1 hnv).1
        simpa [sortDeps] using this
      exact hash_not_in_provLine nv.1 nv.2 (hdeps nv hmem).1 (hdeps nv hmem).2
  exact strContains_eq_false_of_hash l m hhm hhl

theorem update_spec_idempotent_case1
    (lines : List String) (dependencies : List (String × String))
    (results : String → Verdict) (b1 b2 p1 p2 : Nat)
    (hbr : _find_buildrequires_section lines = some (b1, b2))
    (hpv : _find_provides_section lines = some (p1, p2))
    (hdisj : b2 < p1)
    (hdeps : ∀ nv ∈ dependencies, '#' ∉ nv.1.toList ∧ '#' ∉ nv.2.toList) :
    ∃ out preview,
      update_spec lines dependencies results false = .ok (out, preview) ∧
      update_spec out dependencies results false = .ok (out, preview) := by
  rcases hpart : partitionDeps dependencies results with ⟨X1, X2⟩
  have hnm0 := partition_lines_no_marker dependencies results hdeps
  rw [hpart] at hnm0
  have hnm : ∀ l, (l ∈ X1 ∨ l ∈ X2) →
      strContains l "# Rust dependencies" = false ∧
      strContains l "# End rust dependencies" = false ∧
      strContains l "# Bundled dependencies" = false ∧
      strContains l "# End bundled dependencies" = false := by
    intro l hl
    have h := hnm0 l (List.mem_append.2 hl)
    exact ⟨h _ (by simp [specMarkers]), h _ (by simp [specMarkers]),
      h _ (by simp [specMarkers]), h _ (by simp [specMarkers])⟩
  obtain ⟨BB, CC, el, hdec, he, hel1, hel2, hBB, hdisjB⟩ :=
    findSectionAux_decomp _ _ lines 0 none b1 b2 hbr
  have hdisjB' : ∃ B1 sl B2, BB = B1 ++ sl :: B2 ∧ b1 = 0 + B1.length ∧
      strContains sl "# Rust dependencies" = true ∧
      ∀ l ∈ B2, strContains l "# Rust dependencies" = false := by
    rcases hdisjB with h | ⟨hfalse, _⟩
    · exact h
    · cases hfalse
  obtain ⟨B1, sl, B2, hB12, hs, hsl, hB2⟩ := hdisjB'
  obtain ⟨PB, PC, pel, hpdec, hpe, hpel1, hpel2, hPB, hdisjP⟩ :=
    findSectionAux_decomp _ _ lines 0 none p1 p2 hpv
  have hdisjP' : ∃ P1 psl P2, PB = P1 ++ psl :: P2 ∧ p1 = 0 + P1.length ∧
      strContains psl "# Bundled dependencies" = true ∧
      ∀ l ∈ P2, strContains l "# Bundled dependencies" = false := by
    rcases hdisjP with h | ⟨hfalse, _⟩
    · exact h
    · cases hfalse
  obtain ⟨P1, psl, P2, hP12, hps, hpsl, hP2⟩ := hdisjP'
  have hb1 : b1 = B1.length := by omega
  have hb2 : b2 = B1.length + B2.length + 1 := by
    rw [hB12] at he
    simp only [List.length_append, List.length_cons] at he
    omega
  have hp1 : p1 = P1.length := by omega
  have hp2 : p2 = P1.length + P2.length + 1 := by
    rw [hP12] at hpe
    simp only [List.length_append, List.length_cons] at hpe
    omega
  have hlines1 : lines = B1 ++ sl :: (B2 ++ el :: CC) := by
    rw [hdec, hB12]
    simp
  have hlines2 : lines = P1 ++ psl :: (P2 ++ pel :: PC) := by
    rw [hpdec, hP12]
    simp
  have hXlen : (B1 ++ sl :: (B2 ++ [el])).length = b2 + 1 := by
    simp only [List.length_append, List.length_cons, List.length_nil]
    omega
  have heqA : (B1 ++ sl :: (B2 ++ [el])) ++ CC = P1 ++ psl :: (P2 ++ pel :: PC) := by
    rw [← hlines2, hlines1]
    simp [List.append_assoc]
  have hble : b2 + 1 ≤ P1.length := by omega
  have hF1 : CC = P1.drop (b2 + 1) ++ (psl :: (P2 ++ pel :: PC)) := by
    have h2 : ((B1 ++ sl :: (B2 ++ [el])) ++ CC).drop (b2 + 1) = CC := by
      rw [show b2 + 1 = (B1 ++ sl :: (B2 ++ [el])).length from hXlen.symm]
      exact drop_concat0 _ _
    have h1 := congrArg (List.drop (b2 + 1)) heqA
    rw [h2, List.drop_append_of_le_length hble] at h1
    exact h1
  have hF2 : P1 = (B1 ++ sl :: (B2 ++ [el])) ++ P1.drop (b2 + 1) := by
    have h2t : ((B1 ++ sl :: (B2 ++ [el])) ++ CC).take (b2 + 1)
        = B1 ++ sl :: (B2 ++ [el]) := by
      rw [show b2 + 1 = (B1 ++ sl :: (B2 ++ [el])).length from hXlen.symm]
      exact take_concat _ _
    have h1 := congrArg (List.take (b2 + 1)) heqA
    rw [h2t, List.take_append_of_le_length hble] at h1
    conv_lhs => rw [← List.take_append_drop (b2 + 1) P1]
    rw [← h1]
  set C1 := P1.drop (b2 + 1) with hC1
  have hP1len : P1.length = B1.length + B2.length + C1.length + 2 := by
    have := congrArg List.length hF2
    simp only [List.length_append, List.length_cons, List.length_nil] at this
    omega
  have hlines9 : lines = B1 ++ sl :: (B2 ++ el :: (C1 ++ psl :: (P2 ++ pel :: PC))) := by
    rw [hlines1, hF1]
  have hsplice1 : _update_lines lines (b1, b2) (p1, p2) X1 X2
      = B1 ++ sl :: (X1 ++ el :: (C1 ++ psl :: (X2 ++ pel :: PC))) := by
    rw [hlines9, hb1, hb2,
      show p1 = B1.length + B2.length + C1.length + 2 from by omega,
      show p2 = B1.length + B2.length + C1.length + P2.length + 3 from by omega]
    exact update_lines_splice B1 B2 C1 P2 PC sl el psl pel X1 X2
  have hupd1 : update_spec lines dependencies results false
      = .ok (B1 ++ sl :: (X1 ++ el :: (C1 ++ psl :: (X2 ++ pel :: PC))),
             _generate_preview X1 X2) := by
    simp only [update_spec, hbr, hpv, hpart, Bool.false_eq_true, if_false, hsplice1]
  set out := B1 ++ sl :: (X1 ++ el :: (C1 ++ psl :: (X2 ++ pel :: PC))) with hout
  have hinB1 : ∀ l ∈ B1, strContains l "# End rust dependencies" = true →
      strContains l "# Rust dependencies" = true := by
    intro l hl
    exact hBB l (by rw [hB12]; exact List.mem_append.2 (Or.inl hl))
  have hX1br : ∀ l ∈ X1, strContains l "# Rust dependencies" = false ∧
      strContains l "# End rust dependencies" = false :=
    fun l hl => ⟨(hnm l (Or.inl hl)).1, (hnm l (Or.inl hl)).2.1⟩
  have hbr2 : _find_buildrequires_section out
      = some (B1.length, B1.length + 1 + X1.length) := by
    rw [hout]
    exact findSection_decomposed _ _ B1 X1 _ sl el hinB1 hsl hX1br hel1 hel2
  have hP1sub : ∀ l, (l ∈ B1 ∨ l = sl ∨ l ∈ B2 ∨ l = el ∨ l ∈ C1) → l ∈ P1 := by
    intro l hl
    rw [hF2]
    simp only [List.mem_append, List.mem_cons, List.mem_singleton]
    tauto
  have hPBprop : ∀ l ∈ P1, strContains l "# End bundled dependencies" = true →
      strContains l "# Bundled dependencies" = true := by
    intro l hl
    exact hPB l (by rw [hP12]; exact List.mem_append.2 (Or.inl hl))
  have hpre2 : ∀ l ∈ B1 ++ sl :: (X1 ++ el :: C1),
      strContains l "# End bundled dependencies" = true →
      strContains l "# Bundled dependencies" = true := by
    intro l hl
    simp only [List.mem_append, List.mem_cons] at hl
    rcases hl with h | h | h
    · exact hPBprop l (hP1sub l (Or.inl h))
    · exact hPBprop l (hP1sub l (Or.inr (Or.inl h)))
    · rcases h with h | h
      · intro he
        exact absurd he (by rw [(hnm l (Or.inl h)).2.2.2]; simp)
      · rcases h with h | h
        · exact hPBprop l (hP1sub l (Or.inr (Or.inr (Or.inr (Or.inl h)))))
        · exact hPBprop l (hP1sub l (Or.inr (Or.inr (Or.inr (Or.inr h)))))
  have hX2pv : ∀ l ∈ X2, strContains l "# Bundled dependencies" = false ∧
      strContains l "# End bundled dependencies" = false :=
    fun l hl => ⟨(hnm l (Or.inr hl)).2.2.1, (hnm l (Or.inr hl)).2.2.2⟩
  have hpv2 : _find_provides_section out
      = some ((B1 ++ sl :: (X1 ++ el :: C1)).length,
              (B1 ++ sl :: (X1 ++ el :: C1)).length + 1 + X2.length) := by
    rw [hout,
      show B1 ++ sl :: (X1 ++ el :: (C1 ++ psl :: (X2 ++ pel :: PC)))
        = (B1 ++ sl :: (X1 ++ el :: C1)) ++ psl :: (X2 ++ pel :: PC) from by
          simp [List.append_assoc]]
    exact findSection_decomposed _ _ _ X2 PC psl pel hpre2 hpsl hX2pv hpel1 hpel2
  have hsplice2 : _update_lines out (B1.length, B1.length + 1 + X1.length)
      ((B1 ++ sl :: (X1 ++ el :: C1)).length,
       (B1 ++ sl :: (X1 ++ el :: C1)).length + 1 + X2.length) X1 X2 = out := by
    rw [hout,
      show B1.length + 1 + X1.length = B1.length + X1.length + 1 from by omega,
      show (B1 ++ sl :: (X1 ++ el :: C1)).length
        = B1.length + X1.length + C1.length + 2 from by
          simp only [List.length_append, List.length_cons]; omega,
      show B1.length + X1.length + C1.length + 2 + 1 + X2.length
        = B1.length + X1.length + C1.length + X2.length + 3 from by omega]
    exact update_lines_splice B1 X1 C1 X2 PC sl el psl pel X1 X2
  have hupd2 : update_spec out dependencies results false
      = .ok (out, _generate_preview X1 X2) := by
    simp only [update_spec, hbr2, hpv2, hpart, Bool.false_eq_true, if_false, hsplice2]
  exact ⟨out, _generate_preview X1 X2, hupd1, hupd2⟩

theorem update_spec_idempotent_case2
    (lines : List String) (dependencies : List (String × String))
    (results : String → Verdict) (b1 b2 p1 p2 : Nat)
    (hbr : _find_buildrequires_section lines = some (b1, b2))
    (hpv : _find_provides_section lines = some (p1, p2))
    (hdisj : p2 < b1)
    (hdeps : ∀ nv ∈ dependencies, '#' ∉ nv.1.toList ∧ '#' ∉ nv.2.toList) :
    ∃ out preview,
      update_spec lines dependencies results false = .ok (out, preview) ∧
      update_spec out dependencies results false = .ok (out, preview) := by
  rcases hpart : partitionDeps dependencies results with ⟨X1, X2⟩
  have hnm0 := partition_lines_no_marker dependencies results hdeps
  rw [hpart] at hnm0
  have hnm : ∀ l, (l ∈ X1 ∨ l ∈ X2) →
      strContains l "# Rust dependencies" = false ∧
      strContains l "# End rust dependencies" = false ∧
      strContains l "# Bundled dependencies" = false ∧
      strContains l "# End bundled dependencies" = false := by
    intro l hl
    have h := hnm0 l (List.mem_append.2 hl)
    exact ⟨h _ (by simp [specMarkers]), h _ (by simp [specMarkers]),
      h _ (by simp [specMarkers]), h _ (by simp [specMarkers])⟩
  obtain ⟨BB, CC, el, hdec, he, hel1, hel2, hBB, hdisjB⟩ :=
    findSectionAux_decomp _ _ lines 0 none b1 b2 hbr
  have hdisjB' : ∃ B1 sl B2, BB = B1 ++ sl :: B2 ∧ b1 = 0 + B1.length ∧
      strContains sl "# Rust dependencies" = true ∧
      ∀ l ∈ B2, strContains l "# Rust dependencies" = false := by
    rcases hdisjB with h | ⟨hfalse, _⟩
    · exact h
    · cases hfalse
  obtain ⟨B1, sl, B2, hB12, hs, hsl, hB2⟩ := hdisjB'
  obtain ⟨PB, PC, pel, hpdec, hpe, hpel1, hpel2, hPB, hdisjP⟩ :=
    findSectionAux_decomp _ _ lines 0 none p1 p2 hpv
  have hdisjP' : ∃ P1 psl P2, PB = P1 ++ psl :: P2 ∧ p1 = 0 + P1.length ∧
      strContains psl "# Bundled dependencies" = true ∧
      ∀ l ∈ P2, strContains l "# Bundled dependencies" = false := by
    rcases hdisjP with h | ⟨hfalse, _⟩
    · exact h
    · cases hfalse
  obtain ⟨P1, psl, P2, hP12, hps, hpsl, hP2⟩ := hdisjP'
  have hb1 : b1 = B1.length := by omega
  have hb2 : b2 = B1.length + B2.length + 1 := by
    rw [hB12] at he
    simp only [List.length_append, List.length_cons] at he
    omega
  have hp1 : p1 = P1.length := by omega
  have hp2 : p2 = P1.length + P2.length + 1 := by
    rw [hP12] at hpe
    simp only [List.length_append, List.length_cons] at hpe
    omega
  have hlines1 : lines = B1 ++ sl :: (B2 ++ el :: CC) := by
    rw [hdec, hB12]
    simp
  have hlines2 : lines = P1 ++ psl :: (P2 ++ pel :: PC) := by
    rw [hpdec, hP12]
    simp
  have hXlen : (P1 ++ psl :: (P2 ++ [pel])).length = p2 + 1 := by
    simp only [List.length_append, List.length_cons, List.length_nil]
    omega
  have heqA : (P1 ++ psl :: (P2 ++ [pel])) ++ PC = B1 ++ sl :: (B2 ++ el :: CC) := by
    rw [← hlines1, hlines2]
    simp [List.append_assoc]
  have hble : p2 + 1 ≤ B1.length := by omega
  have hF1 : PC = B1.drop (p2 + 1) ++ (sl :: (B2 ++ el :: CC)) := by
    have h2 : ((P1 ++ psl :: (P2 ++ [pel])) ++ PC).drop (p2 + 1) = PC := by
      rw [show p2 + 1 = (P1 ++ psl :: (P2 ++ [pel])).length from hXlen.symm]
      exact drop_concat0 _ _
    have h1 := congrArg (List.drop (p2 + 1)) heqA
    rw [h2, List.drop_append_of_le_length hble] at h1
    exact h1
  have hF2 : B1 = (P1 ++ psl :: (P2 ++ [pel])) ++ B1.drop (p2 + 1) := by
    have h2t : ((P1 ++ psl :: (P2 ++ [pel])) ++ PC).take (p2 + 1)
        = P1 ++ psl :: (P2 ++ [pel]) := by
      rw [show p2 + 1 = (P1 ++ psl :: (P2 ++ [pel])).length from hXlen.symm]
      exact take_concat _ _
    have h1 := congrArg (List.take (p2 + 1)) heqA
    rw [h2t, List.take_append_of_le_length hble] at h1
    conv_lhs => rw [← List.take_append_drop (p2 + 1) B1]
    rw [← h1]
  set C1 := B1.drop (p2 + 1) with hC1
  have hB1len : B1.length = P1.length + P2.length + C1.length + 2 := by
    have := congrArg List.length hF2
    simp only [List.length_append, List.length_cons, List.length_nil] at this
    omega
  have hlines9 : lines = P1 ++ psl :: (P2 ++ pel :: (C1 ++ sl :: (B2 ++ el :: CC))) := by
    rw [hlines2, hF1]
  have hsplice1 : _update_lines lines (b1, b2) (p1, p2) X1 X2
      = P1 ++ psl :: (X2 ++ pel :: (C1 ++ sl :: (X1 ++ el :: CC))) := by
    rw [hlines9, hp1,
      show b1 = P1.length + P2.length + C1.length + 2 from by omega,
      show b2 = P1.length + P2.length + C1.length + B2.length + 3 from by omega,
      show p2 = P1.length + P2.length + 1 from hp2]
    exact update_lines_splice2 P1 P2 C1 B2 CC sl el psl pel X1 X2
  have hupd1 : update_spec lines dependencies results false
      = .ok (P1 ++ psl :: (X2 ++ pel :: (C1 ++ sl :: (X1 ++ el :: CC))),
             _generate_preview X1 X2) := by
    simp only [update_spec, hbr, hpv, hpart, Bool.false_eq_true, if_false, hsplice1]
  set out := P1 ++ psl :: (X2 ++ pel :: (C1 ++ sl :: (X1 ++ el :: CC))) with hout
  have hinP1 : ∀ l ∈ P1, strContains l "# End bundled dependencies" = true →
      strContains l "# Bundled dependencies" = true := by
    intro l hl
    exact hPB l (by rw [hP12]; exact List.mem_append.2 (Or.inl hl))
  have hX2pv : ∀ l ∈ X2, strContains l "# Bundled dependencies" = false ∧
      strContains l "# End bundled dependencies" = false :=
    fun l hl => ⟨(hnm l (Or.inr hl)).2.2.1, (hnm l (Or.inr hl)).2.2.2⟩
  have hpv2 : _find_provides_section out
      = some (P1.length, P1.length + 1 + X2.length) := by
    rw [hout]
    exact findSection_decomposed _ _ P1 X2 _ psl pel hinP1 hpsl hX2pv hpel1 hpel2
  have hB1sub : ∀ l, (l ∈ P1 ∨ l = psl ∨ l ∈ P2 ∨ l = pel ∨ l ∈ C1) → l ∈ B1 := by
    intro l hl
    rw [hF2]
    simp only [List.mem_append, List.mem_cons, List.mem_singleton]
    tauto
  have hBBprop : ∀ l ∈ B1, strContains l "# End rust dependencies" = true →
      strContains l "# Rust dependencies" = true := by
    intro l hl
    exact hBB l (by rw [hB12]; exact List.mem_append.2 (Or.inl hl))
  have hpre2 : ∀ l ∈ P1 ++ psl :: (X2 ++ pel :: C1),
      strContains l "# End rust dependencies" = true →
      strContains l "# Rust dependencies" = true := by
    intro l hl
    simp only [List.mem_append, List.mem_cons] at hl
    rcases hl with h | h | h
    · exact hBBprop l (hB1sub l (Or.inl h))
    · exact hBBprop l (hB1sub l (Or.inr (Or.inl h)))
    · rcases h with h | h
      · intro he
        exact absurd he (by rw [(hnm l (Or.inr h)).2.1]; simp)
      · rcases h with h | h
        · exact hBBprop l (hB1sub l (Or.inr (Or.inr (Or.inr (Or.inl h)))))
        · exact hBBprop l (hB1sub l (Or.inr (Or.inr (Or.inr (Or.inr h)))))
  have hX1br : ∀ l ∈ X1, strContains l "# Rust dependencies" = false ∧
      strContains l "# End rust dependencies" = false :=
    fun l hl => ⟨(hnm l (Or.inl hl)).1, (hnm l (Or.inl hl)).2.1⟩
  have hbr2 : _find_buildrequires_section out
      = some ((P1 ++ psl :: (X2 ++ pel :: C1)).length,
              (P1 ++ psl :: (X2 ++ pel :: C1)).length + 1 + X1.length) := by
    rw [hout,
      show P1 ++ psl :: (X2 ++ pel :: (C1 ++ sl :: (X1 ++ el :: CC)))
        = (P1 ++ psl :: (X2 ++ pel :: C1)) ++ sl :: (X1 ++ el :: CC) from by
          simp [List.append_assoc]]
    exact findSection_decomposed _ _ _ X1 CC sl el hpre2 hsl hX1br hel1 hel2
  have hsplice2 : _update_lines out
      ((P1 ++ psl :: (X2 ++ pel :: C1)).length,
       (P1 ++ psl :: (X2 ++ pel :: C1)).length + 1 + X1.length)
      (P1.length, P1.length + 1 + X2.length) X1 X2 = out := by
    rw [hout,
      show (P1 ++ psl :: (X2 ++ pel :: C1)).length
        = P1.length + X2.length + C1.length + 2 from by
          simp only [List.length_append, List.length_cons]; omega,
      show P1.length + X2.length + C1.length + 2 + 1 + X1.length
        = P1.length + X2.length + C1.length + X1.length + 3 from by omega,
      show P1.length + 1 + X2.length = P1.length + X2.length + 1 from by omega]
    exact update_lines_splice2 P1 X2 C1 X1 CC sl el psl pel X1 X2
  have hupd2 : update_spec out dependencies results false
      = .ok (out, _generate_preview X1 X2) := by
    simp only [update_spec, hbr2, hpv2, hpart, Bool.false_eq_true, if_false, hsplice2]
  exact ⟨out, _generate_preview X1 X2, hupd1, hupd2⟩

/-- C2: on a well-formed descriptor — both marker pairs present, each start
strictly before its end (the marker search guarantees this), and the two
regions disjoint — applying `update_spec` with `draft = False` twice with the
same dependencies and verdicts leaves the file of the second application
byte-identical to the file of the first, and the returned preview identical
too.  The dependency names and versions are required to be free of `#` and
newline characters (as all names parsed from the manifests and all versions
parsed from the lockfile are), so that the generated lines can neither spawn
new marker lines nor split at write-out. -/
theorem update_spec_idempotent
    (lines : List String) (dependencies : List (String × String))
    (results : String → Verdict) (b1 b2 p1 p2 : Nat)
    (hbr : _find_buildrequires_section lines = some (b1, b2))
    (hpv : _find_provides_section lines = some (p1, p2))
    (hdisj : b2 < p1 ∨ p2 < b1)
    (hdeps : ∀ nv ∈ dependencies,
      ('#' ∉ nv.1.toList ∧ '\n' ∉ nv.1.toList) ∧
      ('#' ∉ nv.2.toList ∧ '\n' ∉ nv.2.toList)) :
    ∃ out preview,
      update_spec lines dependencies results false = .ok (out, preview) ∧
      update_spec out dependencies results false = .ok (out, preview) := by
  have hdeps' : ∀ nv ∈ dependencies, '#' ∉ nv.1.toList ∧ '#' ∉ nv.2.toList :=
    fun nv h => ⟨(hdeps nv h).1.1, (hdeps nv h).2.1⟩
  rcases hdisj with h | h
  · exact update_spec_idempotent_case1 lines dependencies results b1 b2 p1 p2
      hbr hpv h hdeps'
  · exact update_spec_idempotent_case2 lines dependencies results b1 b2 p1 p2
      hbr hpv h hdeps'

/-- Witness for C2 on a concrete descriptor with stale region content. -/
theorem update_spec_idempotent_witness :
    ∃ out preview,
      update_spec
          ["Name: goose", "# Rust dependencies", "BuildRequires: rust-old-devel",
           "# End rust dependencies", "%build", "# Bundled dependencies",
           "# End bundled dependencies", "%files"]
          [("serde", "1.0.210"), ("tokio", "1.0")]
          (fun n => if n = "serde" then (true, "✓ rust-serde-devel", ["rust-serde-devel"])
                    else (false, "✗ Not found in Fedora", []))
          false = .ok (out, preview) ∧
      update_spec out
          [("serde", "1.0.210"), ("tokio", "1.0")]
          (fun n => if n = "serde" then (true, "✓ rust-serde-devel", ["rust-serde-devel"])
                    else (false, "✗ Not found in Fedora", []))
          false = .ok (out, preview) :=
  update_spec_idempotent _ _ _ 1 3 5 6 (by decide) (by decide)
    (Or.inl (by decide)) (by decide)
